import Mathlib

/-!
Shallow embedding of the narrative chunker (`app/src/chunk_text.py`) and the
table normalizer (`app/src/normalize_tables.py`) of the
ExtractInformationPDFs repository, together with the helpers from
`app/src/utils.py` that they use.  Python strings are modelled as `String`
(lists of characters), Python `float` values as `ℚ` on the decimal-literal
fragment, Python exceptions as `Except PyErr`.
-/

namespace PDFX

/-- The apostrophe character (U+0027), built by code point to keep source
    text free of bare quote characters. -/
def apos : Char := Char.ofNat 39

/-- The double-quote character (U+0022). -/
def dquote : Char := Char.ofNat 34

/-- Python regex `\s` / `str.strip` whitespace, restricted to the ASCII
    whitespace characters (space, tab, LF, CR, VT, FF); the inputs handled
    by the pipeline only contain these. -/
def isPyWs (c : Char) : Bool :=
  c = ' ' || c = Char.ofNat 9 || c = Char.ofNat 10 || c = Char.ofNat 13 ||
  c = Char.ofNat 11 || c = Char.ofNat 12

/-- ASCII decimal digit test (Python regex `\d` on ASCII input). -/
def isDigitCh (c : Char) : Bool := '0' ≤ c && c ≤ '9'

/-- ASCII alphanumeric test (the character class `[a-zA-Z0-9]` of
    `utils.slugify`). -/
def isAlnumAscii (c : Char) : Bool :=
  ('a' ≤ c && c ≤ 'z') || ('A' ≤ c && c ≤ 'Z') || isDigitCh c

/-- Python `str.strip()` on a character list: drop leading and trailing
    whitespace. -/
def stripCh (l : List Char) : List Char :=
  ((l.dropWhile isPyWs).reverse.dropWhile isPyWs).reverse

/-- Python `str.strip()`. -/
def pyStrip (s : String) : String := String.mk (stripCh s.toList)

/-- The character replacements performed by `utils.normalize_whitespace`  :
    en/em dashes to `-`, curly single quotes to the apostrophe, curly double
    quotes to `"`.  Each Python `str.replace` there replaces a single
    character, so the whole chain is a character map. -/
def mapSpecial (c : Char) : Char :=
  if c = Char.ofNat 0x2013 || c = Char.ofNat 0x2014 then '-'
  else if c = Char.ofNat 0x2018 || c = Char.ofNat 0x2019 then apos
  else if c = Char.ofNat 0x201C || c = Char.ofNat 0x201D then dquote
  else c

/-- State machine for `collapseWs`: the flag records whether the scan is
    inside a whitespace run whose single `' '` was already emitted. -/
def collapseWsAux : Bool → List Char → List Char
  | _, [] => []
  | inWs, c :: rest =>
    if isPyWs c then
      if inWs then collapseWsAux true rest else ' ' :: collapseWsAux true rest
    else c :: collapseWsAux false rest

/-- Python `re.sub(r"\s+", " ", ·)`: collapse every whitespace run to a
    single space. -/
def collapseWs (l : List Char) : List Char := collapseWsAux false l

/-- `utils.normalize_whitespace`: replace typographic characters, collapse
    whitespace runs, strip. -/
def normalize_whitespace (s : String) : String :=
  String.mk (stripCh (collapseWs (s.toList.map mapSpecial)))

/-- State machine for `splitWordsCh`: the accumulator holds the current
    word reversed. -/
def splitWordsAux : List Char → List Char → List (List Char)
  | acc, [] => if acc.isEmpty then [] else [acc.reverse]
  | acc, c :: rest =>
    if isPyWs c then
      if acc.isEmpty then splitWordsAux [] rest
      else acc.reverse :: splitWordsAux [] rest
    else splitWordsAux (c :: acc) rest

/-- Python `str.split()` (no separator): whitespace-delimited words,
    empties discarded. -/
def splitWordsCh (l : List Char) : List (List Char) := splitWordsAux [] l

/-- Python `str.split()`. -/
def pySplit (s : String) : List String := (splitWordsCh s.toList).map String.mk

/-- Python `" ".join(·)`. -/
def joinSpace (l : List String) : String :=
  String.mk (List.intercalate [' '] (l.map String.toList))

/-- Helper for `splitLinesCh`: accumulate the current line (reversed) while
    scanning for line breaks (`\n`, `\r`, `\r\n`). -/
def splitLinesGo : List Char → List Char → List (List Char)
  | acc, [] => [acc.reverse]
  | acc, c :: rest =>
    if c = Char.ofNat 10 then acc.reverse :: splitLinesGo [] rest
    else if c = Char.ofNat 13 then
      match rest with
      | d :: rest2 =>
        if d = Char.ofNat 10 then acc.reverse :: splitLinesGo [] rest2
        else acc.reverse :: splitLinesGo [] (d :: rest2)
      | [] => acc.reverse :: splitLinesGo [] []
    else splitLinesGo (c :: acc) rest

/-- Python `str.splitlines()` restricted to the `\n` / `\r` / `\r\n`
    breaks: split at breaks and drop the final empty piece produced by a
    trailing break. -/
def splitLinesCh (l : List Char) : List (List Char) :=
  match l with
  | [] => []
  | _ =>
    let parts := splitLinesGo [] l
    if parts.getLast? = some [] then parts.dropLast else parts

/-- Matches `utils.HEADER_FOOTER_PATTERNS[0]`, the case-insensitive regex
    `^\s*page\s+\d+` : after optional whitespace the word `page`, then at
    least one whitespace character, then a digit. -/
def digitAfterWs : List Char → Bool
  | [] => false
  | c :: rest => isDigitCh c || (isPyWs c && digitAfterWs rest)

/-- One-or-more whitespace then a digit (the `\s+\d` part). -/
def wsThenDigit : List Char → Bool
  | [] => false
  | c :: rest => isPyWs c && digitAfterWs rest

/-- The full `^\s*page\s+\d+` test (case-insensitive). -/
def matchPageHeader (l : List Char) : Bool :=
  match (l.map Char.toLower).dropWhile isPyWs with
  | 'p' :: 'a' :: 'g' :: 'e' :: rest => wsThenDigit rest
  | _ => false

/-- Matches `utils.HEADER_FOOTER_PATTERNS[1]`, the regex `^\s*\d+\s*$` :
    the line is optional whitespace, at least one digit, optional
    whitespace. -/
def matchOnlyNumber (l : List Char) : Bool :=
  let afterWs := l.dropWhile isPyWs
  let digits := afterWs.takeWhile isDigitCh
  let rest := afterWs.dropWhile isDigitCh
  !digits.isEmpty && rest.all isPyWs

/-- `utils.remove_headers_and_footers`: strip each line, drop empty lines
    and lines matching a header/footer pattern. -/
def remove_headers_and_footers (lines : List (List Char)) : List (List Char) :=
  lines.filterMap (fun line =>
    let normalized := stripCh line
    if normalized.isEmpty then none
    else if matchPageHeader normalized || matchOnlyNumber normalized then none
    else some normalized)

/-- Substring containment of a literal pattern (`re.search` on a pattern
    with no metacharacters). -/
def containsSub (pat l : List Char) : Bool :=
  l.tails.any (fun t => pat.isPrefixOf t)

/-- After one-or-more whitespace characters, the digit `7` (tail of the
    regex `item\s+7\.?`; the optional trailing dot never affects whether a
    match exists). -/
def sevenAfterWs : List Char → Bool
  | [] => false
  | c :: rest => c = '7' || (isPyWs c && sevenAfterWs rest)

/-- Does the list start with a match of `item\s+7`? -/
def item7At : List Char → Bool
  | 'i' :: 't' :: 'e' :: 'm' :: c :: rest => isPyWs c && sevenAfterWs rest
  | _ => false

/-- `re.search(r"item\s+7\.?", ·)` as a Boolean. -/
def containsItem7 (l : List Char) : Bool := l.tails.any item7At

/-- The pattern string of the first section rule, built by code points to
    keep the apostrophe out of the source text. -/
def mdnaPat : List Char :=
  "management".toList ++ [apos] ++ "s discussion".toList

/-- `utils.detect_section`: first-match-wins over the ordered
    `SECTION_PATTERNS` rules, on the lowercased text; `None` when no rule
    matches. -/
def detect_section (s : String) : Option String :=
  let lower := s.toList.map Char.toLower
  if containsSub mdnaPat lower then some "MD&A"
  else if containsItem7 lower then some "MD&A"
  else if containsSub "risk factors".toList lower then some "Risk Factors"
  else if containsSub "financial statements".toList lower then some "Financial Statements"
  else if containsSub "consolidated statements".toList lower then some "Financial Statements"
  else if containsSub "notes to".toList lower then some "Notes"
  else if containsSub "liquidity and capital resources".toList lower then some "MD&A"
  else if containsSub "results of operations".toList lower then some "MD&A"
  else if containsSub "outlook".toList lower then some "Outlook"
  else none

/-- `normalize_tables.detect_statement_type`: first-match-wins over the
    ordered `STATEMENT_PATTERNS` rules on the lowercased text, defaulting
    to `"Other"`. -/
def detect_statement_type (s : String) : String :=
  let lower := s.toList.map Char.toLower
  if containsSub "income".toList lower then "Income"
  else if containsSub "operations".toList lower then "Income"
  else if containsSub "balance".toList lower then "BalanceSheet"
  else if containsSub "financial position".toList lower then "BalanceSheet"
  else if containsSub "cash".toList lower then "CashFlow"
  else if containsSub "equity".toList lower then "Other"
  else if containsSub "notes".toList lower then "Notes"
  else "Other"

/-- State machine for `subNonAlnum`: the flag records whether the scan is
    inside a non-alphanumeric run whose `'_'` was already emitted. -/
def subNonAlnumAux : Bool → List Char → List Char
  | _, [] => []
  | inRun, c :: rest =>
    if isAlnumAscii c then c :: subNonAlnumAux false rest
    else if inRun then subNonAlnumAux true rest
    else '_' :: subNonAlnumAux true rest

/-- First step of `utils.slugify`: `re.sub(r"[^a-zA-Z0-9]+", "_", ·)` —
    replace every maximal run of non-alphanumeric characters by a single
    underscore. -/
def subNonAlnum (l : List Char) : List Char := subNonAlnumAux false l

/-- State machine for `collapseUnd`. -/
def collapseUndAux : Bool → List Char → List Char
  | _, [] => []
  | inRun, c :: rest =>
    if c = '_' then
      if inRun then collapseUndAux true rest else '_' :: collapseUndAux true rest
    else c :: collapseUndAux false rest

/-- Second step of `utils.slugify`: `re.sub(r"_+", "_", ·)` — collapse
    underscore runs. -/
def collapseUnd (l : List Char) : List Char := collapseUndAux false l

/-- Python `str.strip("_")`. -/
def stripUnd (l : List Char) : List Char :=
  ((l.dropWhile (fun d => d = '_')).reverse.dropWhile (fun d => d = '_')).reverse

/-- `utils.slugify`: collapse non-alphanumeric runs to `_`, collapse
    underscore runs, strip underscores, lowercase. -/
def slugify (s : String) : String :=
  String.mk ((stripUnd (collapseUnd (subNonAlnum s.toList))).map Char.toLower)

/-- Python `str.capitalize()` on the ASCII fragment: first character
    uppercased, the rest lowercased. -/
def pyCapitalize (l : List Char) : List Char :=
  match l with
  | [] => []
  | c :: rest => Char.toUpper c :: rest.map Char.toLower

/-- `normalize_tables.normalize_metric_label`: normalize whitespace, then
    slugify, split on underscores, capitalize each part and concatenate;
    empty results default to `"UnknownMetric"`. -/
def normalize_metric_label (label : String) : String :=
  let label2 := normalize_whitespace label
  if label2 = "" then "UnknownMetric"
  else
    let slug := slugify label2
    let joined := String.mk (((slug.toList.splitOn '_').map pyCapitalize).flatten)
    if joined = "" then "UnknownMetric" else joined

/-- Numeric value of a digit list read in base 10 (the way `int`/`float`
    parsing accumulates digits); leading zeros are allowed. -/
def decVal (l : List Char) : Nat :=
  l.foldl (fun a c => a * 10 + (c.toNat - 48)) 0

/-- One-or-more digits followed by the remainder, or failure. -/
def takeDigits (l : List Char) : List Char × List Char :=
  (l.takeWhile isDigitCh, l.dropWhile isDigitCh)

/-- Parse the mantissa of a Python float literal: `digits`, `digits.`,
    `digits.digits` or `.digits`; returns the value and the unconsumed
    remainder. -/
def pyFloatNum (l : List Char) : Option (ℚ × List Char) :=
  let ip := l.takeWhile isDigitCh
  let r1 := l.dropWhile isDigitCh
  match r1 with
  | '.' :: r2 =>
    let fp := r2.takeWhile isDigitCh
    let r3 := r2.dropWhile isDigitCh
    if ip.isEmpty && fp.isEmpty then none
    else some ((decVal ip : ℚ) + (decVal fp : ℚ) / ((10 : ℚ) ^ fp.length), r3)
  | _ => if ip.isEmpty then none else some ((decVal ip : ℚ), r1)

/-- Parse an optional exponent part `e`/`E`, optional sign, digits. -/
def pyFloatExp (l : List Char) : Option (Int × List Char) :=
  match l with
  | [] => some (0, [])
  | c :: r =>
    if c = 'e' || c = 'E' then
      let signed : Int × List Char :=
        match r with
        | '+' :: r2 => (1, r2)
        | '-' :: r2 => (-1, r2)
        | _ => (1, r)
      let ds := signed.2.takeWhile isDigitCh
      let rr := signed.2.dropWhile isDigitCh
      if ds.isEmpty then none else some (signed.1 * (decVal ds : Int), rr)
    else some (0, l)

/-- Python `float(·)` modelled on the decimal-literal fragment (optional
    sign, decimal mantissa, optional exponent; no `inf`/`nan`, no digit
    underscores, no hex).  `none` models `ValueError`. -/
def pyFloat (l : List Char) : Option ℚ :=
  let l1 := stripCh l
  let signed : ℚ × List Char :=
    match l1 with
    | '+' :: r => (1, r)
    | '-' :: r => (-1, r)
    | _ => (1, l1)
  match pyFloatNum signed.2 with
  | none => none
  | some (v, rest) =>
    match pyFloatExp rest with
    | none => none
    | some (e, rest2) =>
      if rest2.isEmpty then some (signed.1 * v * (10 : ℚ) ^ e) else none

/-- `utils.safe_float`: remove commas, strip, parse as float, `None` on
    failure. -/
def safe_float (s : String) : Option ℚ :=
  pyFloat (stripCh (s.toList.filter (fun c => c ≠ ',')))

/-- Number of occurrences of a string in a list. -/
def countOcc (x : String) (l : List String) : Nat :=
  (l.filter (fun v => v = x)).length

/-- Helper for `firstOccs`: keep the first occurrence of each element not
    yet seen. -/
def firstOccsAux (seen : List String) : List String → List String
  | [] => []
  | x :: rest =>
    if seen.contains x then firstOccsAux seen rest
    else x :: firstOccsAux (x :: seen) rest

/-- The distinct elements of a list in first-occurrence order (the key
    order of a Python `Counter` built from the list). -/
def firstOccs (l : List String) : List String := firstOccsAux [] l

/-- `utils.majority_vote`: drop falsy values (`None` and the empty
    string), then return the most frequent value, ties resolved to the
    first-encountered one (`Counter.most_common(1)` with stable
    ordering). -/
def majority_vote (values : List (Option String)) : Option String :=
  let filtered := (values.filterMap id).filter (fun v => v ≠ "")
  match filtered with
  | [] => none
  | _ =>
    (firstOccs filtered).foldl
      (fun best k =>
        match best with
        | none => some k
        | some b => if countOcc b filtered < countOcc k filtered then some k else some b)
      none

/-- Fuel-driven helper for `decDigits` (the fuel only needs to dominate
    the digit count, so `n` itself is always enough). -/
def decDigitsF : Nat → Nat → List Char
  | 0, n => [Char.ofNat (48 + n)]
  | fuel + 1, n =>
    if n < 10 then [Char.ofNat (48 + n)]
    else decDigitsF fuel (n / 10) ++ [Char.ofNat (48 + n % 10)]

/-- Big-endian decimal digits of a natural number (Python `str(n)` /
    `format(n, "d")`). -/
def decDigits (n : Nat) : List Char := decDigitsF n n

/-- Left-pad with `'0'` to the given width (the zero-padding of a Python
    `{:0Nd}` format). -/
def zPad (w : Nat) (l : List Char) : List Char :=
  List.replicate (w - l.length) '0' ++ l

/-- Python `f"{n:03d}"` for a natural number. -/
def natPad3 (n : Nat) : List Char := zPad 3 (decDigits n)

/-- Python `f"{n:03d}"` for an integer (the sign counts toward the
    width). -/
def intPad3 (n : Int) : List Char :=
  if n < 0 then '-' :: zPad 2 (decDigits (-n).toNat) else zPad 3 (decDigits n.toNat)

/-- The chunk id `f"{sourceFile}_p{page_start:03d}_c{chunk_index:03d}"` of
    `chunk_text.chunk_document`. -/
def chunkId (sf : String) (pageStart : Int) (ci : Nat) : String :=
  String.mk (sf.toList ++ "_p".toList ++ intPad3 pageStart ++ "_c".toList ++ natPad3 ci)

/-- The fact id
    `f"{sourceFile}_p{table_index:03d}_r{row_idx:03d}_c{col_idx:03d}"` of
    `normalize_tables.extract_table_records`. -/
def factId (sf : String) (ti ri ci : Nat) : String :=
  String.mk (sf.toList ++ "_p".toList ++ natPad3 ti ++ "_r".toList ++ natPad3 ri ++
    "_c".toList ++ natPad3 ci)

/-- The value of the digit run that ends a string (reads a chunk id's
    trailing `chunk_index` back). -/
def trailingDigitsVal (s : String) : Nat :=
  decVal (s.toList.reverse.takeWhile isDigitCh).reverse

/-- Reads the `(table, row, column)` index triple back out of a fact id by
    scanning from the end. -/
def factKey (s : String) : Option (Nat × Nat × Nat) :=
  let l := s.toList.reverse
  let dc := takeDigits l
  match dc.2 with
  | 'c' :: '_' :: l2 =>
    let dr := takeDigits l2
    match dr.2 with
    | 'r' :: '_' :: l4 =>
      let dt := takeDigits l4
      some (decVal dt.1.reverse, decVal dr.1.reverse, decVal dc.1.reverse)
    | _ => none
  | _ => none

/-- Python exceptions that the modelled code can raise, plus fuel
    exhaustion of the loop model (never reached, see the termination
    theorems). -/
inductive PyErr : Type
  | valueError
  | indexError
  | fuelOut
deriving DecidableEq

/-- One entry of the payload's `pages[]` list.  A missing `content` is the
    empty string (the code maps falsy contents to `""`); a missing
    `pageNumber` is `none`. -/
structure PageIn where
  pageNumber : Option Int
  content : String
deriving DecidableEq

/-- One entry of a table's `cells[]` list, with the defaults the code
    applies (`rowIndex`/`columnIndex` default 0, spans default 1, falsy
    content becomes `""`). -/
structure TableCell where
  rowIndex : Nat
  columnIndex : Nat
  rowSpan : Nat
  columnSpan : Nat
  content : String
deriving DecidableEq

/-- One entry of a table's `boundingRegions[]` list. -/
structure BoundingRegion where
  pageNumber : Option Int
deriving DecidableEq

/-- One entry of the payload's `tables[]` list. -/
structure TableIn where
  rowCount : Nat
  columnCount : Nat
  cells : List TableCell
  boundingRegions : List BoundingRegion
deriving DecidableEq

/-- A layout payload (the fields the two engines read). -/
structure Payload where
  sourceFile : String
  year : Option String
  pages : List PageIn
  tables : List TableIn
deriving DecidableEq

/-- A prepared page (`chunk_text.prepare_pages` output element). -/
structure Prepared where
  pageNumber : Option Int
  text : String
  sect : Option String
deriving DecidableEq

/-- `chunk_text.prepare_pages`: split each page into lines, drop
    header/footer lines, join with spaces, normalize whitespace; drop
    pages whose cleaned text is empty; tag with the detected section. -/
def prepare_pages (payload : Payload) : List Prepared :=
  payload.pages.filterMap (fun page =>
    let lines := remove_headers_and_footers (splitLinesCh page.content.toList)
    let normalized := normalize_whitespace (joinSpace (lines.map String.mk))
    if normalized = "" then none
    else some ⟨page.pageNumber, normalized, detect_section normalized⟩)

/-- A tokenizer strategy: `tiktoken` true models the subword tokenizer
    branch (the page text gets a trailing newline before encoding),
    `tiktoken` false the whitespace fallback.  The whole development is
    parametric in the encoding, so theorems cover both modes. -/
structure Tokenizer (τ : Type) where
  encode : String → List τ
  decode : List τ → String
  tiktoken : Bool

/-- The fallback tokenizer that the code uses when `tiktoken` cannot be
    imported: `str.split()` to encode, `" ".join` to decode. -/
def fallbackTok : Tokenizer String :=
  { encode := pySplit, decode := joinSpace, tiktoken := false }

/-- A page-span table entry: the token-index range `[start, stop)` one
    prepared page contributed to the document token stream. -/
structure Span where
  page : Option Int
  start : Nat
  stop : Nat
  sect : Option String
deriving DecidableEq

/-- The `doc_tokens` / `page_spans` accumulation loop of
    `chunk_document`, with the running token count passed explicitly. -/
def buildStream (tok : Tokenizer τ) : List Prepared → Nat → List τ × List Span
  | [], _ => ([], [])
  | page :: rest, offset =>
    let tokens :=
      if tok.tiktoken then tok.encode (page.text ++ String.mk [Char.ofNat 10])
      else tok.encode page.text
    let tail := buildStream tok rest (offset + tokens.length)
    (tokens ++ tail.1,
     ⟨page.pageNumber, offset, offset + tokens.length, page.sect⟩ :: tail.2)

/-- A chunk record. -/
structure Chunk where
  id : String
  content : String
  year : Option String
  sect : String
  sourceFile : String
  pageStart : Int
  pageEnd : Int
deriving DecidableEq

/-- `CHUNK_TOKEN_TARGET` from `chunk_text.py`. -/
def CHUNK_TOKEN_TARGET : Nat := 1500

/-- `OVERLAP_TOKENS` from `chunk_text.py`. -/
def OVERLAP_TOKENS : Nat := 180

/-- The overlap test of `chunk_document`:
    `not (span.end <= cursor or span.start >= end)`. -/
def spanOverlaps (cursor e : Nat) (s : Span) : Bool :=
  !(s.stop ≤ cursor || e ≤ s.start)

/-- The windowing loop of `chunk_document`, one constructor-recursive step
    per iteration, driven by explicit fuel (`PyErr.fuelOut` marks fuel
    exhaustion; the termination theorem shows it is never returned with
    enough fuel).  `PyErr.valueError` models `min()`/`max()` on an empty
    sequence, which the code reaches when every overlapping span has page
    `None`. -/
def chunkLoop (tok : Tokenizer τ) (docTokens : List τ) (spans : List Span)
    (sf : String) (year : Option String) :
    Nat → Nat → Nat → Except PyErr (List Chunk)
  | 0, _, _ => .error .fuelOut
  | fuel + 1, cursor, cidx =>
    if cursor < docTokens.length then
      let e : Nat := min (cursor + CHUNK_TOKEN_TARGET) docTokens.length
      let slice := (docTokens.drop cursor).take (e - cursor)
      if slice.isEmpty then .ok []
      else
        let content := pyStrip (tok.decode slice)
        if content = "" then chunkLoop tok docTokens spans sf year fuel e cidx
        else
          let overlapping := spans.filter (spanOverlaps cursor e)
          if overlapping.isEmpty then chunkLoop tok docTokens spans sf year fuel e cidx
          else
            match overlapping.filterMap Span.page with
            | [] => .error .valueError
            | p :: ps =>
              let pageStart := ps.foldl min p
              let pageEnd := ps.foldl max p
              let sect := (majority_vote (overlapping.map Span.sect)).getD "General"
              let ch : Chunk :=
                { id := chunkId sf pageStart cidx, content := content, year := year,
                  sect := sect, sourceFile := sf, pageStart := pageStart,
                  pageEnd := pageEnd }
              if e = docTokens.length then .ok [ch]
              else
                let step := if tok.tiktoken then OVERLAP_TOKENS else max 1 (OVERLAP_TOKENS / 5)
                match chunkLoop tok docTokens spans sf year fuel
                    (max (e - step) (cursor + 1)) (cidx + 1) with
                | .ok rest => .ok (ch :: rest)
                | .error err => .error err
    else .ok []

/-- `chunk_text.chunk_document`: prepare pages, build the token stream and
    page spans, run the windowing loop (fuel one more than the stream
    length, which the termination theorem shows is enough). -/
def chunk_document (tok : Tokenizer τ) (payload : Payload) : Except PyErr (List Chunk) :=
  let pages := prepare_pages payload
  if pages.isEmpty then .ok []
  else
    let ts := buildStream tok pages 0
    chunkLoop tok ts.1 ts.2 payload.sourceFile payload.year (ts.1.length + 1) 0 0

/-- A dense table grid (list of rows of cell strings). -/
abbrev Grid := List (List String)

/-- One write `grid[row][col] = ...` of the span-expansion loop, with the
    concatenation rule for positions written more than once;
    `PyErr.indexError` models an out-of-range index. -/
def gridWrite (grid : Grid) (r c : Nat) (content : String) : Except PyErr Grid :=
  match grid.get? r with
  | none => .error .indexError
  | some row =>
    match row.get? c with
    | none => .error .indexError
    | some old =>
      let newVal := if old ≠ "" then old ++ " " ++ content else old ++ content
      .ok (grid.set r (row.set c newVal))

/-- The inner `for col in range(...)` loop of the span expansion. -/
def writeRow (r : Nat) (content : String) : Grid → List Nat → Except PyErr Grid
  | g, [] => .ok g
  | g, c :: cs =>
    match gridWrite g r c content with
    | .error e => .error e
    | .ok g2 => writeRow r content g2 cs

/-- The outer `for row in range(...)` loop of the span expansion. -/
def writeRows (cell : TableCell) : Grid → List Nat → Except PyErr Grid
  | g, [] => .ok g
  | g, r :: rs =>
    match writeRow r cell.content g
        ((List.range cell.columnSpan).map (fun j => cell.columnIndex + j)) with
    | .error e => .error e
    | .ok g2 => writeRows cell g2 rs

/-- Write one cell's content into every grid position covered by its
    row/column span (the nested `for row ... for col ...` loops). -/
def applyCell (grid : Grid) (cell : TableCell) : Except PyErr Grid :=
  writeRows cell grid ((List.range cell.rowSpan).map (fun i => cell.rowIndex + i))

/-- The `for cell in table.get("cells", [])` loop. -/
def applyCells : Grid → List TableCell → Except PyErr Grid
  | g, [] => .ok g
  | g, cell :: rest =>
    match applyCell g cell with
    | .error e => .error e
    | .ok g2 => applyCells g2 rest

/-- Build the dense `rowCount × columnCount` grid and expand every cell
    into it. -/
def buildGrid (table : TableIn) : Except PyErr Grid :=
  applyCells (List.replicate table.rowCount (List.replicate table.columnCount ""))
    table.cells

/-- Python truthiness test of a row: some cell strips to non-empty. -/
def rowNonBlank (row : List String) : Bool :=
  row.any (fun cell => pyStrip cell ≠ "")

/-- Drop fully-blank rows, then normalize every kept cell (the list
    comprehension at `normalize_tables.py:72`). -/
def cleanRows (g : Grid) : Grid :=
  (g.filter rowNonBlank).map (fun row => row.map normalize_whitespace)

/-- The indices of the non-empty columns of a (rectangular, non-empty)
    grid. -/
def keptCols (g : Grid) : List Nat :=
  (List.range (g.headD []).length).filter (fun idx =>
    g.any (fun row => pyStrip (row.getD idx "") ≠ ""))

/-- Keep only the non-empty columns of every row. -/
def selectCols (g : Grid) : Grid :=
  g.map (fun row => (keptCols g).map (fun idx => row.getD idx ""))

/-- The per-column header text: the whitespace-joined non-empty header-row
    values, defaulting to `f"Column{idx}"`. -/
def gridHeaders (g2 : Grid) (headerRows : Nat) : List String :=
  (List.range (g2.headD []).length).map (fun colIdx =>
    let hv := (List.range headerRows).map (fun ri => (g2.getD ri []).getD colIdx "")
    let h := normalize_whitespace (joinSpace (hv.filter (fun v => v ≠ "")))
    if h = "" then "Column" ++ String.mk (decDigits colIdx) else h)

/-- The grid-reconstruction pipeline of one table up to the header/data
    split: `none` when the cleaned grid has no rows. -/
def tableShape (table : TableIn) : Except PyErr (Option (List String × Grid)) :=
  match buildGrid table with
  | .error e => .error e
  | .ok g =>
    let g1 := cleanRows g
    if g1.isEmpty then .ok none
    else
      let g2 := selectCols g1
      let hr := min 2 g2.length
      .ok (some (gridHeaders g2 hr, g2.drop hr))

/-- Insertion into a Python dict: an existing key keeps its position and
    takes the new value, a new key is appended. -/
def pyDictInsert (d : List (String × String)) (k v : String) : List (String × String) :=
  if d.any (fun kv => kv.1 = k) then d.map (fun kv => if kv.1 = k then (k, v) else kv)
  else d ++ [(k, v)]

/-- The dict comprehension
    `{header: row[col_idx] for col_idx, header in enumerate(headers)}` —
    duplicate header texts end up holding the right-most column's value. -/
def rowDict (headers row : List String) : List (String × String) :=
  (List.range headers.length).foldl
    (fun d i => pyDictInsert d (headers.getD i "") (row.getD i "")) []

/-- Python `dict.get(k, d)` on the association-list model. -/
def dictGetD (d : List (String × String)) (k dflt : String) : String :=
  match d.find? (fun kv => kv.1 = k) with
  | some kv => kv.2
  | none => dflt

/-- The classification text of a data row: the whitespace-joined
    normalized values of its row dict (`" ".join(... for v in
    row_dict.values())`). -/
def rowStatementText (rd : List (String × String)) : String :=
  joinSpace (rd.map (fun kv => normalize_whitespace kv.2))

/-- A fact record.  `sect` is `Option` because the per-record section can
    be `None` before the table-level backfill; after `finalizeRec` it is
    always `some`. -/
structure FactRec where
  id : String
  year : Option String
  statementType : String
  sect : Option String
  metric : String
  value : Option ℚ
  unit : String
  sourceFile : String
  page : Option Int
deriving DecidableEq

/-- Character containment in a string (Python `c in s` for a single
    character). -/
def hasChar (s : String) (c : Char) : Bool := s.toList.any (fun d => d = c)

/-- The record built by one iteration of the inner column loop of
    `extract_table_records` (before the table-level backfill). -/
def mkFact (sf : String) (year : Option String) (ti rowIdx colIdx : Nat)
    (headers : List String) (metricCol : String) (page : Option Int)
    (rd : List (String × String)) : FactRec :=
  let metricRaw := normalize_whitespace (dictGetD rd metricCol "")
  let col := headers.getD colIdx ""
  let valueRaw := dictGetD rd col ""
  { id := factId sf ti rowIdx colIdx
    year := year
    statementType :=
      detect_statement_type (if metricRaw = "" then rowStatementText rd else metricRaw)
    sect := (detect_section metricRaw).orElse (fun _ => detect_section col)
    metric := normalize_metric_label metricRaw
    value := safe_float valueRaw
    unit := if hasChar valueRaw '%' then "%" else if hasChar valueRaw '$' then "$" else ""
    sourceFile := sf
    page := page }

/-- The records of one data row: one per header column after the first
    (`for col_idx, col in enumerate(headers[1:], start=1)`). -/
def rowRecords (sf : String) (year : Option String) (ti rowIdx : Nat)
    (headers : List String) (metricCol : String) (page : Option Int)
    (row : List String) : List FactRec :=
  let rd := rowDict headers row
  (List.range (headers.length - 1)).map (fun j =>
    mkFact sf year ti rowIdx (j + 1) headers metricCol page rd)

/-- The records of all data rows, rows numbered from `rowIdx` upward. -/
def rowsRecords (sf : String) (year : Option String) (ti : Nat)
    (headers : List String) (metricCol : String) (page : Option Int) :
    List (List String) → Nat → List FactRec
  | [], _ => []
  | row :: rest, rowIdx =>
    rowRecords sf year ti rowIdx headers metricCol page row ++
      rowsRecords sf year ti headers metricCol page rest (rowIdx + 1)

/-- The per-row statement-type candidates of a table. -/
def tableStmtCands (headers : List String) (dataRows : List (List String)) : List String :=
  dataRows.map (fun row => detect_statement_type (rowStatementText (rowDict headers row)))

/-- The per-row section candidates of a table. -/
def tableSectCands (headers : List String) (dataRows : List (List String)) :
    List (Option String) :=
  dataRows.map (fun row => detect_section (rowStatementText (rowDict headers row)))

/-- The table-level backfill of one record:
    `section = record.get("section") or dominant_section or "Financial
    Statements"` and `statementType = dominant_statement or
    record["statementType"]`. -/
def finalizeRec (domSect domStmt : Option String) (r : FactRec) : FactRec :=
  { r with
    sect := some (((r.sect).orElse (fun _ => domSect)).getD "Financial Statements")
    statementType := domStmt.getD r.statementType }

/-- Processing of one table of the payload (`table_index` = `ti`):
    grid reconstruction, header/data split, record emission, table-level
    backfill.  The `indexError` on empty headers models the unchecked
    `headers[0]` (provably unreachable: a non-empty cleaned grid always
    keeps at least one column). -/
def processTable (sf : String) (year : Option String) (ti : Nat) (table : TableIn) :
    Except PyErr (List FactRec) :=
  match tableShape table with
  | .error e => .error e
  | .ok none => .ok []
  | .ok (some (headers, dataRows)) =>
    if dataRows.isEmpty then .ok []
    else
      match headers with
      | [] => .error .indexError
      | metricCol :: _ =>
        let page := (table.boundingRegions.headD ⟨none⟩).pageNumber
        let raw := rowsRecords sf year ti headers metricCol page dataRows 0
        if raw.isEmpty then .ok []
        else
          let domS := majority_vote (tableSectCands headers dataRows)
          let domT := majority_vote ((tableStmtCands headers dataRows).map some)
          .ok (raw.map (finalizeRec domS domT))

/-- The enumeration loop over the payload's tables, with the running table
    index passed explicitly. -/
def extractTables (sf : String) (year : Option String) :
    List TableIn → Nat → Except PyErr (List FactRec)
  | [], _ => .ok []
  | t :: rest, ti =>
    match processTable sf year ti t with
    | .error e => .error e
    | .ok rs =>
      match extractTables sf year rest (ti + 1) with
      | .error e => .error e
      | .ok more => .ok (rs ++ more)

/-- `normalize_tables.extract_table_records`. -/
def extract_table_records (payload : Payload) : Except PyErr (List FactRec) :=
  extractTables payload.sourceFile payload.year payload.tables 0

/-- The payload of the repository's `test_normalize_tables.py` test: a
    4×2 income-statement table on page 12. -/
def incomeTablePayload : Payload :=
  { sourceFile := "Company_FY2024.pdf"
    year := some "FY2024"
    pages := []
    tables := [
      { rowCount := 4
        columnCount := 2
        cells := [
          ⟨0, 0, 1, 1, "Consolidated Statements of Income"⟩,
          ⟨1, 1, 1, 1, "FY2024"⟩,
          ⟨2, 0, 1, 1, "Revenue"⟩,
          ⟨2, 1, 1, 1, "1,000"⟩,
          ⟨3, 0, 1, 1, "Net income"⟩,
          ⟨3, 1, 1, 1, "200"⟩]
        boundingRegions := [⟨some 12⟩] }] }

/-- The payload of the repository's `test_chunk_text.py` test: two
    narrative pages. -/
def twoPagePayload : Payload :=
  { sourceFile := "Company_FY2024.pdf"
    year := some "FY2024"
    pages := [
      ⟨some 1, "Item 7. Management" ++ String.mk [apos] ++ "s Discussion" ++
        String.mk [Char.ofNat 10] ++ "Revenue increased."⟩,
      ⟨some 2, "Risk Factors" ++ String.mk [Char.ofNat 10] ++ "Supply chain disruptions."⟩]
    tables := [] }

/-- A malformed payload: the single table's only cell declares
    `rowSpan = 2` although the table declares `rowCount = 1`, so the
    span-expansion loop indexes past the grid. -/
def oobCellPayload : Payload :=
  { sourceFile := "bad.pdf", year := none, pages := [],
    tables := [{ rowCount := 1, columnCount := 1,
                 cells := [⟨0, 0, 2, 1, "x"⟩], boundingRegions := [] }] }

/-- A malformed payload: a non-empty page with no `pageNumber`, so the
    chunker's `min()` over overlapping page numbers gets an empty
    sequence. -/
def noNumberPagePayload : Payload :=
  { sourceFile := "bad2.pdf", year := none,
    pages := [⟨none, "hello world"⟩], tables := [] }

/-- Modelled from the spec's words, for comparison with the code: the
    whitespace-joined string of ALL of a data row's cell values.  The code
    itself joins the row dict's values instead (`" ".join(... for v in
    row_dict.values())`), which drops the cells of all but the right-most
    column of each duplicated header text. -/
def rowCellsText (row : List String) : String :=
  joinSpace (row.map (fun v => normalize_whitespace v))

/-- A payload whose single table has two spanned-header columns with the
    same header text `"A c"` and the data row `["income", "foo", "bar"]`:
    the joined row cells contain `income`, but the row dict's values do
    not. -/
def dupStmtPayload : Payload :=
  { sourceFile := "stmt.pdf", year := none, pages := [],
    tables := [{ rowCount := 3, columnCount := 3,
                 cells := [⟨0, 0, 1, 1, "A"⟩, ⟨0, 1, 1, 1, "A"⟩, ⟨0, 2, 1, 1, "B"⟩,
                           ⟨1, 0, 1, 1, "c"⟩, ⟨1, 1, 1, 1, "c"⟩, ⟨1, 2, 1, 1, "d"⟩,
                           ⟨2, 0, 1, 1, "income"⟩, ⟨2, 1, 1, 1, "foo"⟩,
                           ⟨2, 2, 1, 1, "bar"⟩],
                 boundingRegions := [] }] }

/-- A payload whose single table has two columns with identical header
    text (`"M X"`), exercising the duplicate-header overwrite of the row
    dict. -/
def dupHeaderPayload : Payload :=
  { sourceFile := "dup.pdf", year := none, pages := [],
    tables := [{ rowCount := 3, columnCount := 2,
                 cells := [⟨0, 0, 1, 1, "M"⟩, ⟨0, 1, 1, 1, "M"⟩,
                           ⟨1, 0, 1, 1, "X"⟩, ⟨1, 1, 1, 1, "X"⟩,
                           ⟨2, 0, 1, 1, "left"⟩, ⟨2, 1, 1, 1, "7"⟩],
                 boundingRegions := [] }] }

/-! Lemmas about decimal rendering and the id formats. -/

theorem decVal_append_singleton (l : List Char) (c : Char) :
    decVal (l ++ [c]) = decVal l * 10 + (c.toNat - 48) := by
  simp [decVal, List.foldl_append]

theorem decVal_cons_zero (l : List Char) : decVal ('0' :: l) = decVal l := by
  simp [decVal]

theorem decVal_replicate_zero (k : Nat) (l : List Char) :
    decVal (List.replicate k '0' ++ l) = decVal l := by
  induction k with
  | zero => simp
  | succ k ih => simp [List.replicate_succ, decVal_cons_zero, ih]

theorem isDigitCh_of_lt (m : Nat) (h : m < 10) :
    isDigitCh (Char.ofNat (48 + m)) = true := by
  interval_cases m <;> decide

theorem toNat_digit_char (m : Nat) (h : m < 10) :
    (Char.ofNat (48 + m)).toNat = 48 + m := by
  interval_cases m <;> decide

theorem decVal_decDigitsF (fuel : Nat) :
    ∀ n, n ≤ fuel → decVal (decDigitsF fuel n) = n := by
  induction fuel with
  | zero =>
    intro n hn
    interval_cases n
    decide
  | succ fuel ih =>
    intro n hn
    rw [decDigitsF]
    split
    · next h => simp [decVal, toNat_digit_char n h]
    · next h =>
      rw [decVal_append_singleton, ih (n / 10) (by omega),
        toNat_digit_char (n % 10) (Nat.mod_lt _ (by omega))]
      omega

theorem decVal_decDigits (n : Nat) : decVal (decDigits n) = n :=
  decVal_decDigitsF n n le_rfl

theorem decDigitsF_all_digits (fuel : Nat) :
    ∀ n, n ≤ fuel → ∀ c ∈ decDigitsF fuel n, isDigitCh c = true := by
  induction fuel with
  | zero =>
    intro n hn c hc
    interval_cases n
    rw [decDigitsF] at hc
    simp only [List.mem_singleton] at hc
    exact hc ▸ by decide
  | succ fuel ih =>
    intro n hn c hc
    rw [decDigitsF] at hc
    split at hc
    · next h =>
      simp only [List.mem_singleton] at hc
      exact hc ▸ isDigitCh_of_lt n h
    · next h =>
      rcases List.mem_append.1 hc with h1 | h1
      · exact ih (n / 10) (by omega) c h1
      · simp only [List.mem_singleton] at h1
        exact h1 ▸ isDigitCh_of_lt (n % 10) (Nat.mod_lt _ (by omega))

theorem decDigits_all_digits (n : Nat) : ∀ c ∈ decDigits n, isDigitCh c = true :=
  decDigitsF_all_digits n n le_rfl

theorem decVal_natPad3 (n : Nat) : decVal (natPad3 n) = n := by
  rw [natPad3, zPad, decVal_replicate_zero, decVal_decDigits]

theorem natPad3_all_digits (n : Nat) : ∀ c ∈ natPad3 n, isDigitCh c = true := by
  intro c hc
  rcases List.mem_append.1 hc with h1 | h1
  · simp only [List.eq_of_mem_replicate h1]
    decide
  · exact decDigits_all_digits n c h1

theorem takeWhile_append_all {p : Char → Bool} {l : List Char}
    (h : ∀ c ∈ l, p c = true) {d : Char} (hd : p d = false) (r : List Char) :
    (l ++ d :: r).takeWhile p = l := by
  induction l with
  | nil => simp [List.takeWhile_cons, hd]
  | cons x xs ih =>
    have hx : p x = true := h x (List.mem_cons_self _ _)
    simp only [List.cons_append, List.takeWhile_cons, hx, if_true]
    rw [ih (fun c hc => h c (List.mem_cons_of_mem _ hc))]

theorem dropWhile_append_all {p : Char → Bool} {l : List Char}
    (h : ∀ c ∈ l, p c = true) {d : Char} (hd : p d = false) (r : List Char) :
    (l ++ d :: r).dropWhile p = d :: r := by
  induction l with
  | nil => simp [List.dropWhile_cons, hd]
  | cons x xs ih =>
    have hx : p x = true := h x (List.mem_cons_self _ _)
    simp only [List.cons_append, List.dropWhile_cons, hx, if_true]
    exact ih (fun c hc => h c (List.mem_cons_of_mem _ hc))

theorem trailingDigitsVal_chunkId (sf : String) (ps : Int) (ci : Nat) :
    trailingDigitsVal (chunkId sf ps ci) = ci := by
  have hrev : (chunkId sf ps ci).toList.reverse =
      (natPad3 ci).reverse ++ 'c' :: ('_' :: ((intPad3 ps).reverse ++
        ('p' :: '_' :: sf.toList.reverse))) := by
    show (sf.toList ++ "_p".toList ++ intPad3 ps ++ "_c".toList ++ natPad3 ci).reverse = _
    simp [List.reverse_append]
  have hall : ∀ c ∈ (natPad3 ci).reverse, isDigitCh c = true := by
    intro c hc
    exact natPad3_all_digits ci c (List.mem_reverse.1 hc)
  rw [trailingDigitsVal, hrev, takeWhile_append_all hall (by decide) _,
    List.reverse_reverse, decVal_natPad3]

theorem chunkId_inj_ci {sf : String} {ps1 ps2 : Int} {ci1 ci2 : Nat}
    (h : chunkId sf ps1 ci1 = chunkId sf ps2 ci2) : ci1 = ci2 := by
  have := trailingDigitsVal_chunkId sf ps1 ci1
  rw [h, trailingDigitsVal_chunkId] at this
  omega

theorem factKey_factId (sf : String) (ti ri ci : Nat) :
    factKey (factId sf ti ri ci) = some (ti, ri, ci) := by
  have hrev : (factId sf ti ri ci).toList.reverse =
      (natPad3 ci).reverse ++ 'c' :: ('_' :: ((natPad3 ri).reverse ++
        ('r' :: '_' :: ((natPad3 ti).reverse ++
          ('p' :: '_' :: sf.toList.reverse))))) := by
    show (sf.toList ++ "_p".toList ++ natPad3 ti ++ "_r".toList ++ natPad3 ri ++
      "_c".toList ++ natPad3 ci).reverse = _
    simp [List.reverse_append]
  have hc : ∀ c ∈ (natPad3 ci).reverse, isDigitCh c = true :=
    fun c hc => natPad3_all_digits ci c (List.mem_reverse.1 hc)
  have hr : ∀ c ∈ (natPad3 ri).reverse, isDigitCh c = true :=
    fun c hc => natPad3_all_digits ri c (List.mem_reverse.1 hc)
  have ht : ∀ c ∈ (natPad3 ti).reverse, isDigitCh c = true :=
    fun c hc => natPad3_all_digits ti c (List.mem_reverse.1 hc)
  have hcD : isDigitCh 'c' = false := by decide
  have hrD : isDigitCh 'r' = false := by decide
  have hpD : isDigitCh 'p' = false := by decide
  simp only [factKey, takeDigits, hrev,
    takeWhile_append_all hc hcD, dropWhile_append_all hc hcD,
    takeWhile_append_all hr hrD, dropWhile_append_all hr hrD,
    takeWhile_append_all ht hpD, dropWhile_append_all ht hpD,
    List.reverse_reverse, decVal_natPad3]

theorem factId_inj {sf : String} {t1 r1 c1 t2 r2 c2 : Nat}
    (h : factId sf t1 r1 c1 = factId sf t2 r2 c2) : t1 = t2 ∧ r1 = r2 ∧ c1 = c2 := by
  have := factKey_factId sf t1 r1 c1
  rw [h, factKey_factId] at this
  injection this with h2
  injection h2 with ha hb
  injection hb with hb hc
  exact ⟨ha.symm, hb.symm, hc.symm⟩

/-! Lemmas about `List.foldl min` / `List.foldl max` (the way Python's
    `min()` / `max()` traverse a non-empty sequence). -/

theorem foldl_min_le_init (p : Int) (ps : List Int) : ps.foldl min p ≤ p := by
  induction ps generalizing p with
  | nil => exact le_rfl
  | cons q qs ih => exact le_trans (ih (min p q)) (min_le_left _ _)

theorem foldl_min_mem (p : Int) (ps : List Int) : ps.foldl min p ∈ p :: ps := by
  induction ps generalizing p with
  | nil => simp
  | cons q qs ih =>
    rw [List.foldl_cons]
    rcases List.mem_cons.1 (ih (min p q)) with h | h
    · rcases min_choice p q with hm | hm
      · rw [h, hm]
        exact List.mem_cons_self _ _
      · rw [h, hm]
        exact List.mem_cons_of_mem _ (List.mem_cons_self _ _)
    · exact List.mem_cons_of_mem _ (List.mem_cons_of_mem _ h)

theorem foldl_min_le {x p : Int} {ps : List Int} (hx : x ∈ p :: ps) :
    ps.foldl min p ≤ x := by
  induction ps generalizing p with
  | nil => simp at hx; simp [hx]
  | cons q qs ih =>
    rw [List.foldl_cons]
    rcases List.mem_cons.1 hx with h | h
    · rw [h]
      exact le_trans (foldl_min_le_init _ _) (min_le_left _ _)
    · rcases List.mem_cons.1 h with h2 | h2
      · rw [h2]
        exact le_trans (foldl_min_le_init _ _) (min_le_right _ _)
      · exact ih (List.mem_cons_of_mem _ h2)

theorem le_foldl_max_init (p : Int) (ps : List Int) : p ≤ ps.foldl max p := by
  induction ps generalizing p with
  | nil => exact le_rfl
  | cons q qs ih => exact le_trans (le_max_left _ _) (ih (max p q))

theorem foldl_max_mem (p : Int) (ps : List Int) : ps.foldl max p ∈ p :: ps := by
  induction ps generalizing p with
  | nil => simp
  | cons q qs ih =>
    rw [List.foldl_cons]
    rcases List.mem_cons.1 (ih (max p q)) with h | h
    · rcases max_choice p q with hm | hm
      · rw [h, hm]
        exact List.mem_cons_self _ _
      · rw [h, hm]
        exact List.mem_cons_of_mem _ (List.mem_cons_self _ _)
    · exact List.mem_cons_of_mem _ (List.mem_cons_of_mem _ h)

theorem le_foldl_max {x p : Int} {ps : List Int} (hx : x ∈ p :: ps) :
    x ≤ ps.foldl max p := by
  induction ps generalizing p with
  | nil => simp at hx; simp [hx]
  | cons q qs ih =>
    rw [List.foldl_cons]
    rcases List.mem_cons.1 hx with h | h
    · rw [h]
      exact le_trans (le_max_left _ _) (le_foldl_max_init _ _)
    · rcases List.mem_cons.1 h with h2 | h2
      · rw [h2]
        exact le_trans (le_max_right _ _) (le_foldl_max_init _ _)
      · exact ih (List.mem_cons_of_mem _ h2)

/-! Lemmas relating page spans to prepared pages and to the input
    payload. -/

theorem buildStream_spans {τ : Type} (tok : Tokenizer τ) :
    ∀ (pages : List Prepared) (off : Nat), ∀ s ∈ (buildStream tok pages off).2,
      ∃ pp ∈ pages, s.page = pp.pageNumber ∧ s.sect = pp.sect := by
  intro pages
  induction pages with
  | nil => intro off s hs; simp [buildStream] at hs
  | cons pg rest ih =>
    intro off s hs
    simp only [buildStream] at hs
    rcases List.mem_cons.1 hs with h | h
    · exact ⟨pg, List.mem_cons_self _ _, by simp [h]⟩
    · rcases ih _ s h with ⟨pp, hpp, h1, h2⟩
      exact ⟨pp, List.mem_cons_of_mem _ hpp, h1, h2⟩

theorem prepare_pages_pageNumber (payload : Payload) :
    ∀ pp ∈ prepare_pages payload, ∃ pg ∈ payload.pages, pp.pageNumber = pg.pageNumber := by
  intro pp hpp
  rcases List.mem_filterMap.1 hpp with ⟨pg, hpg, hf⟩
  refine ⟨pg, hpg, ?_⟩
  dsimp only at hf
  split at hf
  · exact Option.noConfusion hf
  · injection hf with h1
    rw [← h1]

theorem span_page_mem_input {τ : Type} (tok : Tokenizer τ) (payload : Payload) :
    ∀ s ∈ (buildStream tok (prepare_pages payload) 0).2, ∀ n, s.page = some n →
      n ∈ payload.pages.filterMap PageIn.pageNumber := by
  intro s hs n hn
  rcases buildStream_spans tok _ 0 s hs with ⟨pp, hpp, h1, _⟩
  rcases prepare_pages_pageNumber payload pp hpp with ⟨pg, hpg, h2⟩
  exact List.mem_filterMap.2 ⟨pg, hpg, by rw [← h2, ← h1, hn]⟩

/-! Induction lemmas for the chunking loop. -/

theorem chunkLoop_error_val {τ : Type} (tok : Tokenizer τ) (docTokens : List τ)
    (spans : List Span) (sf : String) (year : Option String) :
    ∀ (fuel cursor cidx : Nat), docTokens.length - cursor < fuel →
      ∀ err, chunkLoop tok docTokens spans sf year fuel cursor cidx = .error err →
        err = PyErr.valueError := by
  intro fuel
  induction fuel with
  | zero => intro cursor cidx h err heq; omega
  | succ fuel ih =>
    intro cursor cidx h err heq
    have hC : CHUNK_TOKEN_TARGET = 1500 := rfl
    simp only [chunkLoop] at heq
    split at heq
    · next hcur =>
      split at heq
      · exact Except.noConfusion heq
      · split at heq
        · exact ih _ _ (by omega) err heq
        · split at heq
          · exact ih _ _ (by omega) err heq
          · split at heq
            · injection heq with h1
              exact h1.symm
            · split at heq
              · exact Except.noConfusion heq
              · split at heq
                · exact Except.noConfusion heq
                · next err2 hrec =>
                  injection heq with h1
                  exact h1 ▸ ih _ _ (by omega) err2 hrec
    · exact Except.noConfusion heq

theorem chunkLoop_ne_valueError {τ : Type} (tok : Tokenizer τ) (docTokens : List τ)
    (spans : List Span) (sf : String) (year : Option String)
    (hpg : ∀ s ∈ spans, s.page ≠ none) :
    ∀ (fuel cursor cidx : Nat),
      chunkLoop tok docTokens spans sf year fuel cursor cidx ≠ .error .valueError := by
  intro fuel
  induction fuel with
  | zero =>
    intro cursor cidx heq
    simp only [chunkLoop] at heq
    injection heq with h1
    exact PyErr.noConfusion h1
  | succ fuel ih =>
    intro cursor cidx heq
    simp only [chunkLoop] at heq
    split at heq
    · next hcur =>
      split at heq
      · exact Except.noConfusion heq
      · split at heq
        · exact ih _ _ heq
        · split at heq
          · exact ih _ _ heq
          · next hne =>
            split at heq
            · next hmatch =>
              exfalso
              have hne2 : ¬ ((List.filter (spanOverlaps cursor
                  (min (cursor + CHUNK_TOKEN_TARGET) docTokens.length)) spans) = []) := by
                intro hnil
                rw [hnil] at hne
                exact hne rfl
              rcases List.exists_mem_of_ne_nil _ hne2 with ⟨o, ho⟩
              have hos : o ∈ spans := (List.mem_filter.1 ho).1
              rcases Option.ne_none_iff_exists'.1 (hpg o hos) with ⟨n, hn⟩
              have hmem : n ∈ (List.filter (spanOverlaps cursor
                  (min (cursor + CHUNK_TOKEN_TARGET) docTokens.length)) spans).filterMap
                    Span.page :=
                List.mem_filterMap.2 ⟨o, ho, hn⟩
              rw [hmatch] at hmem
              exact absurd hmem (List.not_mem_nil n)
            · split at heq
              · exact Except.noConfusion heq
              · split at heq
                · exact Except.noConfusion heq
                · next err2 hrec =>
                  injection heq with h1
                  exact ih _ _ (h1 ▸ hrec)
    · exact Except.noConfusion heq

theorem chunkLoop_ok_chunks {τ : Type} (tok : Tokenizer τ) (docTokens : List τ)
    (spans : List Span) (sf : String) (year : Option String) :
    ∀ (fuel cursor cidx : Nat) (cs : List Chunk),
      chunkLoop tok docTokens spans sf year fuel cursor cidx = .ok cs →
      ∀ ch ∈ cs, ∃ a b, a < b ∧ b ≤ docTokens.length ∧
        ∃ p ps, (spans.filter (spanOverlaps a b)).filterMap Span.page = p :: ps ∧
          ch.pageStart = ps.foldl min p ∧ ch.pageEnd = ps.foldl max p := by
  intro fuel
  induction fuel with
  | zero => intro cursor cidx cs heq; exact Except.noConfusion heq
  | succ fuel ih =>
    intro cursor cidx cs heq
    have hC : CHUNK_TOKEN_TARGET = 1500 := rfl
    simp only [chunkLoop] at heq
    split at heq
    · next hcur =>
      split at heq
      · injection heq with h1
        subst h1
        intro ch hch
        exact absurd hch (List.not_mem_nil ch)
      · split at heq
        · exact ih _ _ _ heq
        · split at heq
          · exact ih _ _ _ heq
          · split at heq
            · exact Except.noConfusion heq
            · next p ps hmatch =>
              split at heq
              · next hend =>
                injection heq with h1
                subst h1
                intro ch hch
                rw [List.mem_singleton] at hch
                subst hch
                exact ⟨cursor, min (cursor + CHUNK_TOKEN_TARGET) docTokens.length,
                  by omega, by omega, p, ps, hmatch, rfl, rfl⟩
              · split at heq
                · next rest hrec =>
                  injection heq with h1
                  subst h1
                  intro ch hch
                  rcases List.mem_cons.1 hch with h2 | h2
                  · subst h2
                    exact ⟨cursor, min (cursor + CHUNK_TOKEN_TARGET) docTokens.length,
                      by omega, by omega, p, ps, hmatch, rfl, rfl⟩
                  · exact ih _ _ _ hrec ch h2
                · exact Except.noConfusion heq
    · injection heq with h1
      subst h1
      intro ch hch
      exact absurd hch (List.not_mem_nil ch)

theorem chunkLoop_ids {τ : Type} (tok : Tokenizer τ) (docTokens : List τ)
    (spans : List Span) (sf : String) (year : Option String) :
    ∀ (fuel cursor cidx : Nat) (cs : List Chunk),
      chunkLoop tok docTokens spans sf year fuel cursor cidx = .ok cs →
      (∀ ch ∈ cs, ∃ pg k, cidx ≤ k ∧ ch.id = chunkId sf pg k) ∧
      cs.Pairwise (fun a b => trailingDigitsVal a.id < trailingDigitsVal b.id) := by
  intro fuel
  induction fuel with
  | zero => intro cursor cidx cs heq; exact Except.noConfusion heq
  | succ fuel ih =>
    intro cursor cidx cs heq
    simp only [chunkLoop] at heq
    split at heq
    · next hcur =>
      split at heq
      · injection heq with h1
        subst h1
        exact ⟨fun ch hch => absurd hch (List.not_mem_nil ch), List.Pairwise.nil⟩
      · split at heq
        · exact ih _ _ _ heq
        · split at heq
          · exact ih _ _ _ heq
          · split at heq
            · exact Except.noConfusion heq
            · next p ps hmatch =>
              split at heq
              · next hend =>
                injection heq with h1
                subst h1
                refine ⟨?_, List.pairwise_singleton _ _⟩
                intro ch hch
                rw [List.mem_singleton] at hch
                subst hch
                exact ⟨ps.foldl min p, cidx, le_rfl, rfl⟩
              · split at heq
                · next rest hrec =>
                  injection heq with h1
                  subst h1
                  rcases ih _ _ _ hrec with ⟨hall, hpw⟩
                  constructor
                  · intro ch hch
                    rcases List.mem_cons.1 hch with h2 | h2
                    · subst h2
                      exact ⟨ps.foldl min p, cidx, le_rfl, rfl⟩
                    · rcases hall ch h2 with ⟨pg, k, hk, hid⟩
                      exact ⟨pg, k, le_trans (Nat.le_succ _) hk, hid⟩
                  · refine List.pairwise_cons.2 ⟨?_, hpw⟩
                    intro b hb
                    rcases hall b hb with ⟨pg, k, hk, hid⟩
                    have h3 : trailingDigitsVal (Chunk.id
                        { id := chunkId sf (ps.foldl min p) cidx,
                          content := pyStrip (tok.decode ((docTokens.drop cursor).take
                            (min (cursor + CHUNK_TOKEN_TARGET) docTokens.length - cursor))),
                          year := year,
                          sect := (majority_vote ((spans.filter (spanOverlaps cursor
                            (min (cursor + CHUNK_TOKEN_TARGET) docTokens.length))).map
                              Span.sect)).getD "General",
                          sourceFile := sf, pageStart := ps.foldl min p,
                          pageEnd := ps.foldl max p }) = cidx := by
                      exact trailingDigitsVal_chunkId sf _ cidx
                    rw [h3, hid, trailingDigitsVal_chunkId]
                    omega
                · exact Except.noConfusion heq
    · injection heq with h1
      subst h1
      exact ⟨fun ch hch => absurd hch (List.not_mem_nil ch), List.Pairwise.nil⟩

/-! Inversion lemmas for the table pipeline. -/

theorem rowRecords_mem (sf : String) (year : Option String) (ti rowIdx : Nat)
    (headers : List String) (metricCol : String) (page : Option Int)
    (row : List String) :
    ∀ r ∈ rowRecords sf year ti rowIdx headers metricCol page row,
      ∃ j, j < headers.length - 1 ∧
        r = mkFact sf year ti rowIdx (j + 1) headers metricCol page (rowDict headers row) := by
  intro r hr
  simp only [rowRecords] at hr
  rcases List.mem_map.1 hr with ⟨j, hj, hr2⟩
  exact ⟨j, List.mem_range.1 hj, hr2.symm⟩

theorem rowsRecords_mem (sf : String) (year : Option String) (ti : Nat)
    (headers : List String) (metricCol : String) (page : Option Int) :
    ∀ (rows : List (List String)) (i : Nat),
      ∀ r ∈ rowsRecords sf year ti headers metricCol page rows i,
        ∃ k row, rows.get? k = some row ∧
          r ∈ rowRecords sf year ti (i + k) headers metricCol page row := by
  intro rows
  induction rows with
  | nil => intro i r hr; exact absurd hr (List.not_mem_nil r)
  | cons row rest ih =>
    intro i r hr
    simp only [rowsRecords] at hr
    rcases List.mem_append.1 hr with h | h
    · exact ⟨0, row, rfl, by simpa using h⟩
    · rcases ih (i + 1) r h with ⟨k, row2, hget, hmem⟩
      refine ⟨k + 1, row2, by simpa using hget, ?_⟩
      have harith : i + 1 + k = i + (k + 1) := by omega
      rw [harith] at hmem
      exact hmem

theorem processTable_mem (sf : String) (year : Option String) (ti : Nat) (table : TableIn)
    (sub : List FactRec) (heq : processTable sf year ti table = .ok sub) :
    ∀ r ∈ sub, ∃ headers dataRows metricCol hrest,
      tableShape table = .ok (some (headers, dataRows)) ∧
      headers = metricCol :: hrest ∧
      ∃ r0 ∈ rowsRecords sf year ti headers metricCol
          ((table.boundingRegions.headD ⟨none⟩).pageNumber) dataRows 0,
        r = finalizeRec (majority_vote (tableSectCands headers dataRows))
              (majority_vote ((tableStmtCands headers dataRows).map some)) r0 := by
  intro r hr
  simp only [processTable] at heq
  split at heq
  · exact Except.noConfusion heq
  · injection heq with h1
    subst h1
    exact absurd hr (List.not_mem_nil r)
  · next hdisc headers dataRows hshape =>
    split at heq
    · injection heq with h1
      subst h1
      exact absurd hr (List.not_mem_nil r)
    · split at heq
      · exact Except.noConfusion heq
      · next metricCol hrest =>
        split at heq
        · injection heq with h1
          subst h1
          exact absurd hr (List.not_mem_nil r)
        · injection heq with h1
          subst h1
          rcases List.mem_map.1 hr with ⟨r0, hr0, hfin⟩
          exact ⟨metricCol :: hrest, dataRows, metricCol, hrest, hshape, rfl, r0, hr0,
            hfin.symm⟩

theorem extractTables_mem (sf : String) (year : Option String) :
    ∀ (ts : List TableIn) (ti : Nat) (rs : List FactRec),
      extractTables sf year ts ti = .ok rs → ∀ r ∈ rs,
        ∃ k tb sub, ts.get? k = some tb ∧
          processTable sf year (ti + k) tb = .ok sub ∧ r ∈ sub := by
  intro ts
  induction ts with
  | nil =>
    intro ti rs heq r hr
    injection heq with h1
    subst h1
    exact absurd hr (List.not_mem_nil r)
  | cons t rest ih =>
    intro ti rs heq r hr
    simp only [extractTables] at heq
    split at heq
    · exact Except.noConfusion heq
    · next sub hpt =>
      split at heq
      · exact Except.noConfusion heq
      · next more hmore =>
        injection heq with h1
        subst h1
        rcases List.mem_append.1 hr with h | h
        · exact ⟨0, t, sub, rfl, by simpa using hpt, h⟩
        · rcases ih (ti + 1) more hmore r h with ⟨k, tb, sub2, hget, hpt2, hmem⟩
          refine ⟨k + 1, tb, sub2, by simpa using hget, ?_, hmem⟩
          have harith : ti + (k + 1) = ti + 1 + k := by omega
          rw [harith]
          exact hpt2

/-! Id shapes and pairwise distinctness of fact records. -/

theorem mkFact_id (sf : String) (year : Option String) (ti ri ci : Nat)
    (headers : List String) (metricCol : String) (page : Option Int)
    (rd : List (String × String)) :
    (mkFact sf year ti ri ci headers metricCol page rd).id = factId sf ti ri ci := rfl

theorem finalizeRec_id (a b : Option String) (r : FactRec) :
    (finalizeRec a b r).id = r.id := rfl

theorem rowRecords_length (sf : String) (year : Option String) (ti rowIdx : Nat)
    (headers : List String) (metricCol : String) (page : Option Int)
    (row : List String) :
    (rowRecords sf year ti rowIdx headers metricCol page row).length =
      headers.length - 1 := by
  simp [rowRecords]

theorem rowsRecords_length (sf : String) (year : Option String) (ti : Nat)
    (headers : List String) (metricCol : String) (page : Option Int) :
    ∀ (rows : List (List String)) (i : Nat),
      (rowsRecords sf year ti headers metricCol page rows i).length =
        rows.length * (headers.length - 1) := by
  intro rows
  induction rows with
  | nil => intro i; simp [rowsRecords]
  | cons row rest ih =>
    intro i
    simp only [rowsRecords, List.length_append, rowRecords_length, ih (i + 1),
      List.length_cons]
    ring

theorem rowsRecords_id_shape (sf : String) (year : Option String) (ti : Nat)
    (headers : List String) (metricCol : String) (page : Option Int)
    (rows : List (List String)) (i : Nat) :
    ∀ r ∈ rowsRecords sf year ti headers metricCol page rows i,
      ∃ k j, k < rows.length ∧ j < headers.length - 1 ∧
        r.id = factId sf ti (i + k) (j + 1) := by
  intro r hr
  rcases rowsRecords_mem sf year ti headers metricCol page rows i r hr with ⟨k, row, hget, hmem⟩
  rcases rowRecords_mem sf year ti (i + k) headers metricCol page row r hmem with ⟨j, hj, hrf⟩
  have hk : k < rows.length := by
    by_contra hge
    rw [List.get?_eq_none.2 (by omega)] at hget
    exact Option.noConfusion hget
  exact ⟨k, j, hk, hj, by rw [hrf, mkFact_id]⟩

theorem rowRecords_pairwise (sf : String) (year : Option String) (ti rowIdx : Nat)
    (headers : List String) (metricCol : String) (page : Option Int)
    (row : List String) :
    (rowRecords sf year ti rowIdx headers metricCol page row).Pairwise
      (fun a b => a.id ≠ b.id) := by
  simp only [rowRecords]
  refine List.Pairwise.map _ ?_ (List.pairwise_lt_range _)
  intro a b hab hid
  rw [mkFact_id, mkFact_id] at hid
  have := (factId_inj hid).2.2
  omega

theorem rowsRecords_pairwise (sf : String) (year : Option String) (ti : Nat)
    (headers : List String) (metricCol : String) (page : Option Int) :
    ∀ (rows : List (List String)) (i : Nat),
      (rowsRecords sf year ti headers metricCol page rows i).Pairwise
        (fun a b => a.id ≠ b.id) := by
  intro rows
  induction rows with
  | nil => intro i; simp [rowsRecords]
  | cons row rest ih =>
    intro i
    simp only [rowsRecords]
    refine List.pairwise_append.2 ⟨rowRecords_pairwise sf year ti i headers metricCol page row,
      ih (i + 1), ?_⟩
    intro a ha b hb
    rcases rowRecords_mem sf year ti i headers metricCol page row a ha with ⟨j, hj, haf⟩
    rcases rowsRecords_id_shape sf year ti headers metricCol page rest (i + 1) b hb with
      ⟨k, j2, hk, hj2, hbid⟩
    intro hid
    rw [haf, mkFact_id, hbid] at hid
    have := (factId_inj hid).2.1
    omega

theorem processTable_pairwise (sf : String) (year : Option String) (ti : Nat)
    (table : TableIn) (sub : List FactRec)
    (heq : processTable sf year ti table = .ok sub) :
    sub.Pairwise (fun a b => a.id ≠ b.id) := by
  simp only [processTable] at heq
  split at heq
  · exact Except.noConfusion heq
  · injection heq with h1
    subst h1
    exact List.Pairwise.nil
  · next hdisc headers dataRows hshape =>
    split at heq
    · injection heq with h1
      subst h1
      exact List.Pairwise.nil
    · split at heq
      · exact Except.noConfusion heq
      · next metricCol hrest =>
        split at heq
        · injection heq with h1
          subst h1
          exact List.Pairwise.nil
        · injection heq with h1
          subst h1
          refine List.Pairwise.map _ ?_
            (rowsRecords_pairwise sf year ti _ metricCol _ dataRows 0)
          intro a b hab
          rw [finalizeRec_id, finalizeRec_id]
          exact hab

theorem processTable_id_shape (sf : String) (year : Option String) (ti : Nat)
    (table : TableIn) (sub : List FactRec)
    (heq : processTable sf year ti table = .ok sub) :
    ∀ r ∈ sub, ∃ ri ci, 1 ≤ ci ∧ r.id = factId sf ti ri ci := by
  intro r hr
  rcases processTable_mem sf year ti table sub heq r hr with
    ⟨headers, dataRows, metricCol, hrest, hshape, hhd, r0, hr0, hfin⟩
  rcases rowsRecords_id_shape sf year ti headers metricCol _ dataRows 0 r0 hr0 with
    ⟨k, j, hk, hj, hid⟩
  exact ⟨k, j + 1, by omega, by rw [hfin, finalizeRec_id, hid]; norm_num⟩

theorem extractTables_id_shape (sf : String) (year : Option String) :
    ∀ (ts : List TableIn) (ti : Nat) (rs : List FactRec),
      extractTables sf year ts ti = .ok rs →
      ∀ r ∈ rs, ∃ k ri ci, r.id = factId sf (ti + k) ri ci := by
  intro ts ti rs heq r hr
  rcases extractTables_mem sf year ts ti rs heq r hr with ⟨k, tb, sub, hget, hpt, hmem⟩
  rcases processTable_id_shape sf year (ti + k) tb sub hpt r hmem with ⟨ri, ci, _, hid⟩
  exact ⟨k, ri, ci, hid⟩

theorem extractTables_pairwise (sf : String) (year : Option String) :
    ∀ (ts : List TableIn) (ti : Nat) (rs : List FactRec),
      extractTables sf year ts ti = .ok rs →
      rs.Pairwise (fun a b => a.id ≠ b.id) := by
  intro ts
  induction ts with
  | nil =>
    intro ti rs heq
    injection heq with h1
    subst h1
    exact List.Pairwise.nil
  | cons t rest ih =>
    intro ti rs heq
    simp only [extractTables] at heq
    split at heq
    · exact Except.noConfusion heq
    · next sub hpt =>
      split at heq
      · exact Except.noConfusion heq
      · next more hmore =>
        injection heq with h1
        subst h1
        refine List.pairwise_append.2 ⟨processTable_pairwise sf year ti t sub hpt,
          ih (ti + 1) more hmore, ?_⟩
        intro a ha b hb hid
        rcases processTable_id_shape sf year ti t sub hpt a ha with ⟨ra, ca, _, haid⟩
        rcases extractTables_id_shape sf year rest (ti + 1) more hmore b hb with
          ⟨k, rb, cb, hbid⟩
        rw [haid, hbid] at hid
        have := (factId_inj hid).1
        omega

/-! Character-level lemmas: a cell with a non-whitespace character keeps
    one through normalization, so a non-blank row keeps a non-blank
    column. -/

theorem isPyWs_mapSpecial (c : Char) : isPyWs (mapSpecial c) = isPyWs c := by
  rw [mapSpecial]
  split
  · next h =>
    rw [Bool.or_eq_true] at h
    rcases h with h | h
    · rw [of_decide_eq_true h]
      decide
    · rw [of_decide_eq_true h]
      decide
  · split
    · next h =>
      rw [Bool.or_eq_true] at h
      rcases h with h | h
      · rw [of_decide_eq_true h]
        decide
      · rw [of_decide_eq_true h]
        decide
    · split
      · next h =>
        rw [Bool.or_eq_true] at h
        rcases h with h | h
        · rw [of_decide_eq_true h]
          decide
        · rw [of_decide_eq_true h]
          decide
      · rfl

theorem dropWhile_hasNonWs {l : List Char} (h : ∃ c ∈ l, isPyWs c = false) :
    ∃ c ∈ l.dropWhile isPyWs, isPyWs c = false := by
  induction l with
  | nil => rcases h with ⟨c, hc, _⟩; exact absurd hc (List.not_mem_nil c)
  | cons x xs ih =>
    rcases h with ⟨c, hc, hcw⟩
    by_cases hx : isPyWs x
    · rw [List.dropWhile_cons_of_pos hx]
      rcases List.mem_cons.1 hc with h1 | h1
      · exact absurd (h1 ▸ hcw) (by simp [hx])
      · exact ih ⟨c, h1, hcw⟩
    · rw [List.dropWhile_cons_of_neg hx]
      exact ⟨x, List.mem_cons_self _ _, by simpa using hx⟩

theorem stripCh_hasNonWs {l : List Char} (h : ∃ c ∈ l, isPyWs c = false) :
    ∃ c ∈ stripCh l, isPyWs c = false := by
  rw [stripCh]
  have h1 := dropWhile_hasNonWs h
  have h2 : ∃ c ∈ (l.dropWhile isPyWs).reverse, isPyWs c = false := by
    rcases h1 with ⟨c, hc, hcw⟩
    exact ⟨c, List.mem_reverse.2 hc, hcw⟩
  have h3 := dropWhile_hasNonWs h2
  rcases h3 with ⟨c, hc, hcw⟩
  exact ⟨c, List.mem_reverse.2 hc, hcw⟩

theorem stripCh_ne_nil {l : List Char} (h : ∃ c ∈ l, isPyWs c = false) :
    stripCh l ≠ [] := by
  rcases stripCh_hasNonWs h with ⟨c, hc, _⟩
  intro hnil
  rw [hnil] at hc
  exact absurd hc (List.not_mem_nil c)

theorem collapseWsAux_hasNonWs {l : List Char} (h : ∃ c ∈ l, isPyWs c = false) :
    ∀ b, ∃ c ∈ collapseWsAux b l, isPyWs c = false := by
  induction l with
  | nil => rcases h with ⟨c, hc, _⟩; exact absurd hc (List.not_mem_nil c)
  | cons x xs ih =>
    intro b
    rcases h with ⟨c, hc, hcw⟩
    rw [collapseWsAux]
    by_cases hx : isPyWs x
    · have hc2 : c ∈ xs := by
        rcases List.mem_cons.1 hc with h1 | h1
        · exact absurd (h1 ▸ hcw) (by simp [hx])
        · exact h1
      rw [if_pos hx]
      rcases ih ⟨c, hc2, hcw⟩ true with ⟨d, hd, hdw⟩
      by_cases hb : b
      · rw [if_pos hb]
        exact ⟨d, hd, hdw⟩
      · rw [if_neg hb]
        exact ⟨d, List.mem_cons_of_mem _ hd, hdw⟩
    · rw [if_neg hx]
      exact ⟨x, List.mem_cons_self _ _, by simpa using hx⟩

theorem stripCh_all_ws {l : List Char} (h : ∀ c ∈ l, isPyWs c = true) :
    stripCh l = [] := by
  rw [stripCh, List.dropWhile_eq_nil_iff.2 h]
  rfl

theorem pyStrip_normalize_ne {s : String} (h : pyStrip s ≠ "") :
    pyStrip (normalize_whitespace s) ≠ "" := by
  have h0 : ∃ c ∈ s.toList, isPyWs c = false := by
    by_contra hall
    push_neg at hall
    refine h ?_
    show String.mk (stripCh s.toList) = ""
    rw [stripCh_all_ws (fun c hc => by
      rcases Bool.eq_false_or_eq_true (isPyWs c) with hw | hw
      · exact hw
      · exact absurd hw (hall c hc))]
  have h1 : ∃ c ∈ s.toList.map mapSpecial, isPyWs c = false := by
    rcases h0 with ⟨c, hc, hcw⟩
    exact ⟨mapSpecial c, List.mem_map_of_mem _ hc, by rw [isPyWs_mapSpecial]; exact hcw⟩
  have h2 := collapseWsAux_hasNonWs h1 false
  have h3 : ∃ c ∈ stripCh (collapseWs (s.toList.map mapSpecial)), isPyWs c = false :=
    stripCh_hasNonWs h2
  intro hemp
  have h5 : stripCh (stripCh (collapseWs (s.toList.map mapSpecial))) = [] :=
    congrArg String.toList hemp
  exact stripCh_ne_nil h3 h5

/-! Grid-safety lemmas: writes inside the declared bounds succeed and
    preserve the grid's dimensions. -/

theorem gridWrite_ok {w : Nat} (g : Grid) (r c : Nat) (content : String)
    (hr : r < g.length) (hrect : ∀ row ∈ g, row.length = w) (hcw : c < w) :
    ∃ g2, gridWrite g r c content = .ok g2 ∧ g2.length = g.length ∧
      ∀ row ∈ g2, row.length = w := by
  have hget : g.get? r = some (g.get ⟨r, hr⟩) := List.get?_eq_get hr
  have hrowmem : g.get ⟨r, hr⟩ ∈ g := List.get_mem g _ _
  have hrowlen : (g.get ⟨r, hr⟩).length = w := hrect _ hrowmem
  have hc2 : c < (g.get ⟨r, hr⟩).length := by omega
  have hgetc : (g.get ⟨r, hr⟩).get? c = some ((g.get ⟨r, hr⟩).get ⟨c, hc2⟩) :=
    List.get?_eq_get hc2
  simp only [gridWrite, hget, hgetc]
  refine ⟨_, rfl, List.length_set .., ?_⟩
  intro row hrow
  rcases List.mem_or_eq_of_mem_set hrow with h1 | h1
  · exact hrect _ h1
  · rw [h1, List.length_set]
    exact hrowlen

theorem writeRow_ok {w : Nat} (r : Nat) (content : String) :
    ∀ (cs : List Nat) (g : Grid), r < g.length → (∀ row ∈ g, row.length = w) →
      (∀ c ∈ cs, c < w) →
      ∃ g2, writeRow r content g cs = .ok g2 ∧ g2.length = g.length ∧
        ∀ row ∈ g2, row.length = w := by
  intro cs
  induction cs with
  | nil => intro g hr hrect _; exact ⟨g, rfl, rfl, hrect⟩
  | cons c rest ih =>
    intro g hr hrect hcs
    rcases gridWrite_ok g r c content hr hrect (hcs c (List.mem_cons_self _ _)) with
      ⟨g2, hw, hlen, hrect2⟩
    rcases ih g2 (by omega) hrect2 (fun d hd => hcs d (List.mem_cons_of_mem _ hd)) with
      ⟨g3, hw3, hlen3, hrect3⟩
    refine ⟨g3, ?_, by omega, hrect3⟩
    rw [writeRow, hw]
    exact hw3

theorem writeRows_ok {w : Nat} (cell : TableCell)
    (hcw : cell.columnIndex + cell.columnSpan ≤ w) :
    ∀ (rs : List Nat) (g : Grid), (∀ r ∈ rs, r < g.length) →
      (∀ row ∈ g, row.length = w) →
      ∃ g2, writeRows cell g rs = .ok g2 ∧ g2.length = g.length ∧
        ∀ row ∈ g2, row.length = w := by
  intro rs
  induction rs with
  | nil => intro g _ hrect; exact ⟨g, rfl, rfl, hrect⟩
  | cons r rest ih =>
    intro g hrs hrect
    have hcols : ∀ c ∈ (List.range cell.columnSpan).map (fun j => cell.columnIndex + j),
        c < w := by
      intro c hc
      rcases List.mem_map.1 hc with ⟨j, hj, hcj⟩
      have := List.mem_range.1 hj
      omega
    rcases writeRow_ok r cell.content _ g (hrs r (List.mem_cons_self _ _)) hrect hcols with
      ⟨g2, hw, hlen, hrect2⟩
    rcases ih g2 (fun d hd => by have := hrs d (List.mem_cons_of_mem _ hd); omega) hrect2 with
      ⟨g3, hw3, hlen3, hrect3⟩
    refine ⟨g3, ?_, by omega, hrect3⟩
    rw [writeRows, hw]
    exact hw3

theorem applyCells_ok {w : Nat} :
    ∀ (cells : List TableCell) (g : Grid), (∀ row ∈ g, row.length = w) →
      (∀ cell ∈ cells, cell.rowIndex + cell.rowSpan ≤ g.length ∧
        cell.columnIndex + cell.columnSpan ≤ w) →
      ∃ g2, applyCells g cells = .ok g2 ∧ g2.length = g.length ∧
        ∀ row ∈ g2, row.length = w := by
  intro cells
  induction cells with
  | nil => intro g hrect _; exact ⟨g, rfl, rfl, hrect⟩
  | cons cell rest ih =>
    intro g hrect hb
    have hrows : ∀ r ∈ (List.range cell.rowSpan).map (fun i => cell.rowIndex + i),
        r < g.length := by
      intro r hr
      rcases List.mem_map.1 hr with ⟨i, hi, hri⟩
      have := List.mem_range.1 hi
      have := (hb cell (List.mem_cons_self _ _)).1
      omega
    rcases writeRows_ok cell (hb cell (List.mem_cons_self _ _)).2 _ g hrows hrect with
      ⟨g2, hw, hlen, hrect2⟩
    rcases ih g2 hrect2 (fun d hd => by
      have := hb d (List.mem_cons_of_mem _ hd)
      omega) with ⟨g3, hw3, hlen3, hrect3⟩
    refine ⟨g3, ?_, by omega, hrect3⟩
    rw [applyCells, applyCell, hw]
    exact hw3

theorem buildGrid_ok (table : TableIn)
    (hb : ∀ cell ∈ table.cells, cell.rowIndex + cell.rowSpan ≤ table.rowCount ∧
      cell.columnIndex + cell.columnSpan ≤ table.columnCount) :
    ∃ g, buildGrid table = .ok g ∧ g.length = table.rowCount ∧
      ∀ row ∈ g, row.length = table.columnCount := by
  have hrect : ∀ row ∈ List.replicate table.rowCount
      (List.replicate table.columnCount ("" : String)), row.length = table.columnCount := by
    intro row hrow
    rw [List.eq_of_mem_replicate hrow, List.length_replicate]
  have hlen : (List.replicate table.rowCount
      (List.replicate table.columnCount ("" : String))).length = table.rowCount :=
    List.length_replicate _ _
  rcases applyCells_ok table.cells _ hrect (fun cell hc => by
    have := hb cell hc
    omega) with ⟨g2, hw, hlen2, hrect2⟩
  exact ⟨g2, hw, by omega, hrect2⟩

/-! A non-blank cleaned grid always keeps at least one column, so the
    unchecked `headers[0]` access never fires on a grid that produced data
    rows. -/

theorem cleanRows_rect {g : Grid} {w : Nat} (hrect : ∀ row ∈ g, row.length = w) :
    ∀ row ∈ cleanRows g, row.length = w := by
  intro row hrow
  rcases List.mem_map.1 hrow with ⟨row0, hrow0, hmap⟩
  rw [← hmap, List.length_map]
  exact hrect row0 (List.mem_filter.1 hrow0).1

theorem keptCols_ne_nil (g : Grid) (w : Nat) (hrect : ∀ row ∈ g, row.length = w)
    (hne : cleanRows g ≠ []) : keptCols (cleanRows g) ≠ [] := by
  have hfil : g.filter rowNonBlank ≠ [] := by
    intro h0
    apply hne
    rw [cleanRows, h0]
    rfl
  rcases List.exists_mem_of_ne_nil _ hfil with ⟨row0, hrow0⟩
  have hrow0g : row0 ∈ g := (List.mem_filter.1 hrow0).1
  have hblank : rowNonBlank row0 = true := (List.mem_filter.1 hrow0).2
  rw [rowNonBlank, List.any_eq_true] at hblank
  rcases hblank with ⟨cell, hcell, hcb⟩
  have hcne : pyStrip cell ≠ "" := of_decide_eq_true hcb
  rcases List.mem_iff_get.1 hcell with ⟨⟨idx, hidx⟩, hgetc⟩
  have hw : row0.length = w := hrect row0 hrow0g
  have hhead : ∀ row ∈ cleanRows g, row.length = w := cleanRows_rect hrect
  have hheadlen : (List.headD (cleanRows g) []).length = w := by
    rcases hq : cleanRows g with _ | ⟨h0, t0⟩
    · exact absurd hq hne
    · exact hhead h0 (hq ▸ List.mem_cons_self _ _)
  have hrowmem : row0.map normalize_whitespace ∈ cleanRows g :=
    List.mem_map_of_mem _ hrow0
  have hgetd : (row0.map normalize_whitespace).getD idx "" =
      normalize_whitespace (row0.get ⟨idx, hidx⟩) := by
    rw [List.getD, List.get?_map, List.get?_eq_get hidx]
    rfl
  have hmem : idx ∈ keptCols (cleanRows g) := by
    rw [keptCols]
    refine List.mem_filter.2 ⟨List.mem_range.2 (by omega), ?_⟩
    rw [List.any_eq_true]
    refine ⟨row0.map normalize_whitespace, hrowmem, ?_⟩
    rw [hgetd, hgetc]
    exact decide_eq_true (pyStrip_normalize_ne hcne)
  intro h0
  rw [h0] at hmem
  exact absurd hmem (List.not_mem_nil idx)

theorem gridHeaders_ne_nil (g1 : Grid) (hr : Nat) (hne : g1 ≠ [])
    (hk : keptCols g1 ≠ []) : gridHeaders (selectCols g1) hr ≠ [] := by
  rw [gridHeaders]
  intro h0
  rw [List.map_eq_nil_iff, List.range_eq_nil] at h0
  have hh : (selectCols g1).headD [] = (keptCols g1).map
      (fun idx => (g1.headD []).getD idx "") := by
    rcases hq : g1 with _ | ⟨r0, t0⟩
    · exact absurd hq hne
    · rfl
  rw [hh, List.length_map] at h0
  exact hk (List.length_eq_zero.1 h0)

theorem processTable_ok (sf : String) (year : Option String) (ti : Nat) (table : TableIn)
    (hb : ∀ cell ∈ table.cells, cell.rowIndex + cell.rowSpan ≤ table.rowCount ∧
      cell.columnIndex + cell.columnSpan ≤ table.columnCount) :
    ∃ sub, processTable sf year ti table = .ok sub := by
  rcases buildGrid_ok table hb with ⟨g, hg, hglen, hgrect⟩
  by_cases h1 : (cleanRows g).isEmpty
  · have htS : tableShape table = .ok none := by
      rw [tableShape, hg]
      dsimp only
      rw [if_pos h1]
    rw [processTable, htS]
    exact ⟨[], rfl⟩
  · have hne : cleanRows g ≠ [] := by
      intro h0
      rw [h0] at h1
      exact h1 rfl
    have htS : tableShape table = .ok (some
        (gridHeaders (selectCols (cleanRows g)) (min 2 (selectCols (cleanRows g)).length),
         (selectCols (cleanRows g)).drop (min 2 (selectCols (cleanRows g)).length))) := by
      rw [tableShape, hg]
      dsimp only
      rw [if_neg h1]
    have hhead : gridHeaders (selectCols (cleanRows g))
        (min 2 (selectCols (cleanRows g)).length) ≠ [] :=
      gridHeaders_ne_nil (cleanRows g) _ hne
        (keptCols_ne_nil g table.columnCount hgrect hne)
    rw [processTable, htS]
    dsimp only
    split
    · exact ⟨[], rfl⟩
    · split
      · next hnil => exact absurd hnil hhead
      · next metricCol hrest hcons =>
        split
        · exact ⟨[], rfl⟩
        · exact ⟨_, rfl⟩

theorem extractTables_ok (sf : String) (year : Option String) :
    ∀ (ts : List TableIn) (ti : Nat),
      (∀ tb ∈ ts, ∀ cell ∈ tb.cells, cell.rowIndex + cell.rowSpan ≤ tb.rowCount ∧
        cell.columnIndex + cell.columnSpan ≤ tb.columnCount) →
      ∃ rs, extractTables sf year ts ti = .ok rs := by
  intro ts
  induction ts with
  | nil => intro ti _; exact ⟨[], rfl⟩
  | cons t rest ih =>
    intro ti hb
    rcases processTable_ok sf year ti t (hb t (List.mem_cons_self _ _)) with ⟨sub, hpt⟩
    rcases ih (ti + 1) (fun tb htb => hb tb (List.mem_cons_of_mem _ htb)) with ⟨more, hmore⟩
    refine ⟨sub ++ more, ?_⟩
    rw [extractTables, hpt, hmore]

theorem chunk_document_ok {τ : Type} (tok : Tokenizer τ) (payload : Payload)
    (hpages : ∀ pp ∈ prepare_pages payload, pp.pageNumber ≠ none) :
    ∃ cs, chunk_document tok payload = .ok cs := by
  rw [chunk_document]
  dsimp only
  split
  · exact ⟨[], rfl⟩
  · have hspan : ∀ s ∈ (buildStream tok (prepare_pages payload) 0).2, s.page ≠ none := by
      intro s hs
      rcases buildStream_spans tok _ 0 s hs with ⟨pp, hpp, hp1, _⟩
      rw [hp1]
      exact hpages pp hpp
    cases hres : chunkLoop tok (buildStream tok (prepare_pages payload) 0).1
        (buildStream tok (prepare_pages payload) 0).2 payload.sourceFile payload.year
        ((buildStream tok (prepare_pages payload) 0).1.length + 1) 0 0 with
    | ok cs => exact ⟨cs, rfl⟩
    | error err =>
      have h1 := chunkLoop_error_val tok (buildStream tok (prepare_pages payload) 0).1
        (buildStream tok (prepare_pages payload) 0).2 payload.sourceFile payload.year
        ((buildStream tok (prepare_pages payload) 0).1.length + 1) 0 0 (by omega) err hres
      rw [h1] at hres
      exact absurd hres (chunkLoop_ne_valueError tok _ _ _ _ hspan _ _ _)

/-! Lemmas about the majority vote: over a non-empty list of non-empty
    candidates it always elects a value. -/

theorem detect_statement_type_ne (s : String) : detect_statement_type s ≠ "" := by
  rw [detect_statement_type]
  split_ifs <;> decide

theorem foldl_pick_some (filtered : List String) :
    ∀ (t : List String) (b : String),
      ∃ L, t.foldl (fun best k =>
        match best with
        | none => some k
        | some b2 => if countOcc b2 filtered < countOcc k filtered then some k else some b2)
        (some b) = some L := by
  intro t
  induction t with
  | nil => intro b; exact ⟨b, rfl⟩
  | cons k rest ih =>
    intro b
    rw [List.foldl_cons]
    dsimp only
    by_cases hc : countOcc b filtered < countOcc k filtered
    · rw [if_pos hc]
      exact ih k
    · rw [if_neg hc]
      exact ih b

theorem majority_vote_some (values : List (Option String))
    (hne : (values.filterMap id).filter (fun v => v ≠ "") ≠ []) :
    ∃ L, majority_vote values = some L := by
  rw [majority_vote]
  split
  · next hnil => exact absurd hnil hne
  · rcases hq : (values.filterMap id).filter (fun v => decide (v ≠ "")) with _ | ⟨x, rest⟩
    · exact absurd hq hne
    · have hfo : firstOccs (x :: rest) = x :: firstOccsAux [x] rest := rfl
      rw [hfo, List.foldl_cons]
      exact foldl_pick_some _ _ _

theorem majority_stmt_some (cands : List String) (hne : cands ≠ [])
    (hall : ∀ x ∈ cands, x ≠ "") :
    ∃ L, majority_vote (cands.map some) = some L := by
  apply majority_vote_some
  have h1 : (cands.map some).filterMap id = cands := by
    rw [List.filterMap_map]
    exact List.filterMap_some _
  rw [h1, List.filter_eq_self.2 (fun a ha => decide_eq_true (hall a ha))]
  exact hne

/-! Lemmas about the Python-dict model: looking a key up returns the value
    of the LAST insertion for that key, i.e. the right-most column when
    header texts collide. -/

theorem find_map_update (d : List (String × String)) (k v : String)
    (hany : d.any (fun kv => kv.1 = k) = true) :
    (d.map (fun kv => if kv.1 = k then (k, v) else kv)).find?
      (fun kv => kv.1 = k) = some (k, v) := by
  induction d with
  | nil => simp at hany
  | cons kv rest ih =>
    rw [List.map_cons]
    by_cases hk : kv.1 = k
    · rw [if_pos hk]
      exact List.find?_cons_of_pos _ (by simp)
    · rw [if_neg hk]
      rw [List.find?_cons_of_neg _ (by simpa using hk)]
      apply ih
      simpa [hk] using hany

theorem find_map_update_other (d : List (String × String)) (k v k' : String)
    (hne : k' ≠ k) :
    (d.map (fun kv => if kv.1 = k then (k, v) else kv)).find? (fun kv => kv.1 = k') =
      d.find? (fun kv => kv.1 = k') := by
  induction d with
  | nil => rfl
  | cons kv rest ih =>
    rw [List.map_cons]
    by_cases hk : kv.1 = k
    · rw [if_pos hk]
      have h1 : ¬ ((k, v).1 = k') := fun h => hne (h.symm)
      have h2 : ¬ (kv.1 = k') := by
        rw [hk]
        exact fun h => hne h.symm
      rw [List.find?_cons_of_neg _ (by simpa using h1),
        List.find?_cons_of_neg _ (by simpa using h2)]
      exact ih
    · rw [if_neg hk]
      by_cases hk' : kv.1 = k'
      · rw [List.find?_cons_of_pos _ (by simpa using hk'),
          List.find?_cons_of_pos _ (by simpa using hk')]
      · rw [List.find?_cons_of_neg _ (by simpa using hk'),
          List.find?_cons_of_neg _ (by simpa using hk')]
        exact ih

theorem dictGetD_insert_same (d : List (String × String)) (k v dflt : String) :
    dictGetD (pyDictInsert d k v) k dflt = v := by
  rw [pyDictInsert]
  split
  · next hany =>
    rw [dictGetD, find_map_update d k v hany]
  · next hany =>
    rw [dictGetD, List.find?_append]
    have hfd : d.find? (fun kv => kv.1 = k) = none := by
      rw [List.find?_eq_none]
      intro kv hkv
      simp only [Bool.not_eq_true, decide_eq_false_iff_not]
      intro h0
      exact hany (List.any_eq_true.2 ⟨kv, hkv, decide_eq_true h0⟩)
    rw [hfd]
    simp

theorem dictGetD_insert_other (d : List (String × String)) {k k' : String}
    (hne : k' ≠ k) (v dflt : String) :
    dictGetD (pyDictInsert d k v) k' dflt = dictGetD d k' dflt := by
  rw [pyDictInsert]
  split
  · rw [dictGetD, dictGetD, find_map_update_other d k v k' hne]
  · rw [dictGetD, dictGetD, List.find?_append]
    have h1 : ([(k, v)].find? (fun kv => kv.1 = k')) = none := by
      rw [List.find?_eq_none]
      intro kv hkv
      rw [List.mem_singleton] at hkv
      subst hkv
      simp only [Bool.not_eq_true, decide_eq_false_iff_not]
      exact fun h => hne h.symm
    rw [h1]
    cases d.find? (fun kv => kv.1 = k') <;> rfl

theorem rowDict_lookup_last (headers row : List String) :
    ∀ (n j : Nat), j < n →
      (∀ m, j < m → m < n → headers.getD m "" ≠ headers.getD j "") →
      dictGetD ((List.range n).foldl
        (fun d i => pyDictInsert d (headers.getD i "") (row.getD i "")) [])
        (headers.getD j "") "" = row.getD j "" := by
  intro n
  induction n with
  | zero => intro j hj _; omega
  | succ n ih =>
    intro j hj hdup
    rw [List.range_succ, List.foldl_append, List.foldl_cons, List.foldl_nil]
    by_cases hjn : j = n
    · subst hjn
      rw [dictGetD_insert_same]
    · have hj2 : j < n := by omega
      have hne : headers.getD j "" ≠ headers.getD n "" := by
        intro h0
        exact hdup n hj2 (by omega) h0.symm
      rw [dictGetD_insert_other _ hne _ _]
      exact ih j hj2 (fun m hm1 hm2 => hdup m hm1 (by omega))

/-! Structural lemmas about `safe_float`: commas and surrounding
    whitespace never change the parse. -/

theorem toList_append (a b : String) : (a ++ b).toList = a.toList ++ b.toList := rfl

theorem stripCh_cons_ws {c : Char} (hc : isPyWs c = true) (l : List Char) :
    stripCh (c :: l) = stripCh l := by
  rw [stripCh, stripCh, List.dropWhile_cons_of_pos hc]

theorem stripCh_append_ws {c : Char} (hc : isPyWs c = true) (l : List Char) :
    stripCh (l ++ [c]) = stripCh l := by
  rw [stripCh, stripCh, List.dropWhile_append]
  split
  · next hemp =>
    rw [List.isEmpty_iff] at hemp
    rw [hemp]
    simp [List.dropWhile_cons, hc]
  · rw [List.reverse_append]
    simp only [List.reverse_cons, List.reverse_nil, List.nil_append, List.singleton_append,
      List.dropWhile_cons, hc]
    simp

theorem safe_float_comma (s t : String) :
    safe_float (s ++ "," ++ t) = safe_float (s ++ t) := by
  rw [safe_float, safe_float, toList_append, toList_append, toList_append,
    List.filter_append, List.filter_append, List.filter_append]
  have h1 : ",".toList.filter (fun c => c ≠ ',') = [] := rfl
  rw [h1, List.append_nil]

theorem safe_float_space_left (s : String) :
    safe_float (" " ++ s) = safe_float s := by
  rw [safe_float, safe_float, toList_append, List.filter_append]
  have h1 : " ".toList.filter (fun c => c ≠ ',') = [' '] := rfl
  rw [h1]
  rw [show ([' '] ++ s.toList.filter (fun c => c ≠ ',')) =
    ' ' :: s.toList.filter (fun c => c ≠ ',') from rfl]
  rw [stripCh_cons_ws (by decide)]

theorem safe_float_space_right (s : String) :
    safe_float (s ++ " ") = safe_float s := by
  rw [safe_float, safe_float, toList_append, List.filter_append]
  have h1 : " ".toList.filter (fun c => c ≠ ',') = [' '] := rfl
  rw [h1, stripCh_append_ws (by decide)]

/-! The claim theorems. -/

/-- C1: for a layout payload whose prepared pages all carry a page number,
    every chunk emitted by `chunk_document` has `pageStart` equal to the
    minimum and `pageEnd` equal to the maximum page number among the page
    spans that overlap the chunk's token window `[cursor, end)` (overlap
    test `not (span.end <= cursor or span.start >= end)`); hence
    `pageStart ≤ pageEnd` and both lie within the min/max page numbers of
    the payload's input pages. -/
theorem chunk_pageRange_correct {τ : Type} (tok : Tokenizer τ) (payload : Payload)
    (cs : List Chunk)
    (hnum : ∀ pp ∈ prepare_pages payload, pp.pageNumber ≠ none)
    (hok : chunk_document tok payload = .ok cs) :
    ∀ ch ∈ cs,
      (∃ a b, a < b ∧ b ≤ (buildStream tok (prepare_pages payload) 0).1.length ∧
        ∃ p ps, ((buildStream tok (prepare_pages payload) 0).2.filter
            (spanOverlaps a b)).filterMap Span.page = p :: ps ∧
          ch.pageStart = ps.foldl min p ∧ ch.pageEnd = ps.foldl max p) ∧
      ch.pageStart ≤ ch.pageEnd ∧
      ∃ q qs, payload.pages.filterMap PageIn.pageNumber = q :: qs ∧
        qs.foldl min q ≤ ch.pageStart ∧ ch.pageEnd ≤ qs.foldl max q := by
  intro ch hch
  rw [chunk_document] at hok
  dsimp only at hok
  split at hok
  · injection hok with h1
    subst h1
    exact absurd hch (List.not_mem_nil ch)
  · rcases chunkLoop_ok_chunks tok _ _ _ _ _ _ _ _ hok ch hch with
      ⟨a, b, hab, hble, p, ps, hmatch, hstart, hend⟩
    have hminmem : ch.pageStart ∈ p :: ps := hstart ▸ foldl_min_mem p ps
    have hmaxmem : ch.pageEnd ∈ p :: ps := hend ▸ foldl_max_mem p ps
    have hmem_input : ∀ x, x ∈ p :: ps → x ∈ payload.pages.filterMap PageIn.pageNumber := by
      intro x hx
      rw [← hmatch] at hx
      rcases List.mem_filterMap.1 hx with ⟨s, hs, hsp⟩
      exact span_page_mem_input tok payload s ((List.mem_filter.1 hs).1) x hsp
    have hsle : ch.pageStart ≤ ch.pageEnd := by
      rw [hstart, hend]
      exact le_trans (foldl_min_le_init p ps) (le_foldl_max_init p ps)
    rcases hql : payload.pages.filterMap PageIn.pageNumber with _ | ⟨q, qs⟩
    · have := hmem_input ch.pageStart hminmem
      rw [hql] at this
      exact absurd this (List.not_mem_nil _)
    · refine ⟨⟨a, b, hab, hble, p, ps, hmatch, hstart, hend⟩, hsle, q, qs, rfl, ?_, ?_⟩
      · have := hmem_input ch.pageStart hminmem
        rw [hql] at this
        exact foldl_min_le this
      · have := hmem_input ch.pageEnd hmaxmem
        rw [hql] at this
        exact le_foldl_max this

/-- C1 witness: the two-page test payload has at least one chunk and it
    satisfies the page-range invariant. -/
theorem chunk_pageRange_correct_witness :
    ∃ cs, chunk_document fallbackTok twoPagePayload = Except.ok cs ∧
      cs ≠ [] ∧ ∀ ch ∈ cs, ch.pageStart ≤ ch.pageEnd := by
  refine ⟨_, rfl, by decide, ?_⟩
  intro ch hch
  exact ((chunk_pageRange_correct fallbackTok twoPagePayload _ (by decide) rfl) ch hch).2.1

/-- C2 counterexample: a table cell whose row span exceeds the declared
    row count makes `extract_table_records` raise `IndexError`, and a page
    without a page number makes `chunk_document` raise `ValueError`
    (`min()` of an empty sequence), so the two engines are not crash-free
    on arbitrary malformed payloads. -/
theorem malformed_payload_raises :
    extract_table_records oobCellPayload = .error .indexError ∧
    chunk_document fallbackTok noNumberPagePayload = .error .valueError :=
  ⟨rfl, rfl⟩

/-- C2 (amended): provided every table cell stays within its table's
    declared `rowCount`/`columnCount` and every prepared page carries a
    page number, neither `chunk_document` nor `extract_table_records`
    raises; the worst case is an empty record list. -/
theorem no_raise_under_declared_bounds {τ : Type} (tok : Tokenizer τ) (payload : Payload)
    (hcells : ∀ tb ∈ payload.tables, ∀ cell ∈ tb.cells,
      cell.rowIndex + cell.rowSpan ≤ tb.rowCount ∧
      cell.columnIndex + cell.columnSpan ≤ tb.columnCount)
    (hpages : ∀ pp ∈ prepare_pages payload, pp.pageNumber ≠ none) :
    (∃ cs, chunk_document tok payload = .ok cs) ∧
    (∃ rs, extract_table_records payload = .ok rs) := by
  refine ⟨chunk_document_ok tok payload hpages, ?_⟩
  rw [extract_table_records]
  exact extractTables_ok _ _ payload.tables 0 hcells

/-- C2 witness: the in-bounds income-table payload is processed without an
    exception by both engines. -/
theorem no_raise_under_declared_bounds_witness :
    (∃ cs, chunk_document fallbackTok incomeTablePayload = .ok cs) ∧
    (∃ rs, extract_table_records incomeTablePayload = .ok rs) :=
  no_raise_under_declared_bounds fallbackTok incomeTablePayload (by decide) (by decide)

/-- C3: the chunking loop terminates on every finite token stream — with
    fuel one more than the stream length the loop never exhausts it, so
    `chunk_document` always returns (a chunk list, or the modelled
    `ValueError`); and the cursor update `max (end - step) (cursor + 1)`
    advances by at least one token in all cases, and by exactly the window
    length minus the overlap when that is positive. -/
theorem chunk_loop_terminates {τ : Type} (tok : Tokenizer τ) (payload : Payload) :
    ((∃ cs, chunk_document tok payload = .ok cs) ∨
      chunk_document tok payload = .error .valueError) ∧
    (∀ cursor e step : Nat, cursor < e →
      cursor + 1 ≤ max (e - step) (cursor + 1) ∧
      (step + cursor < e → max (e - step) (cursor + 1) = cursor + (e - cursor - step))) := by
  constructor
  · rw [chunk_document]
    dsimp only
    split
    · exact Or.inl ⟨[], rfl⟩
    · cases hres : chunkLoop tok (buildStream tok (prepare_pages payload) 0).1
          (buildStream tok (prepare_pages payload) 0).2 payload.sourceFile payload.year
          ((buildStream tok (prepare_pages payload) 0).1.length + 1) 0 0 with
      | ok cs => exact Or.inl ⟨cs, rfl⟩
      | error err =>
        have h1 := chunkLoop_error_val tok (buildStream tok (prepare_pages payload) 0).1
          (buildStream tok (prepare_pages payload) 0).2 payload.sourceFile payload.year
          ((buildStream tok (prepare_pages payload) 0).1.length + 1) 0 0 (by omega) err hres
        rw [h1]
        exact Or.inr rfl
  · intro cursor e step h
    refine ⟨by omega, fun h2 => by omega⟩

/-- C3 witness: the theorem applied to the two-page payload and to the
    concrete window arithmetic cursor 0, end 10, step 3. -/
theorem chunk_loop_terminates_witness :
    ((∃ cs, chunk_document fallbackTok twoPagePayload = .ok cs) ∨
      chunk_document fallbackTok twoPagePayload = .error .valueError) ∧
    (0 + 1 ≤ max (10 - 3) (0 + 1) ∧
      (3 + 0 < 10 → max (10 - 3) (0 + 1) = 0 + (10 - 0 - 3))) :=
  ⟨(chunk_loop_terminates fallbackTok twoPagePayload).1,
   (chunk_loop_terminates fallbackTok twoPagePayload).2 0 10 3 (by omega)⟩

/-- C4 counterexample: on a table whose spanned header cells produce two
    columns with the identical header text `"A c"` and the single data row
    `["income", "foo", "bar"]`, the classification of the whitespace-joined
    row cells (`"income foo bar"`) is `"Income"`, so the claimed majority
    is `some "Income"` — but the program joins the row dict's values
    (`"foo bar"`, the duplicate-header cell `"income"` collapsed away) and
    emits `statementType = "Other"` for every record; the claim as stated
    is false at this input. -/
theorem statementType_not_cells_majority :
    tableShape (dupStmtPayload.tables.headD ⟨0, 0, [], []⟩) =
      .ok (some (["A c", "A c", "B d"], [["income", "foo", "bar"]])) ∧
    majority_vote ((([["income", "foo", "bar"]] : List (List String)).map
      (fun row => detect_statement_type (rowCellsText row))).map some) =
        some "Income" ∧
    (extract_table_records dupStmtPayload).map
      (fun rs => rs.map FactRec.statementType) = .ok ["Other", "Other"] ∧
    some ("Other" : String) ≠ some ("Income" : String) :=
  ⟨rfl, rfl, rfl, by decide⟩

/-- C4 (amended): every emitted fact record's final `statementType` equals
    the majority vote (first-encountered tie-break, as implemented by
    `majority_vote`) over the table's data rows of
    `detect_statement_type` applied to the whitespace-joined values of the
    row's header-keyed dict — so cells of all but the right-most column of
    a duplicated header text are not part of the classification text; the
    per-record fallback is never used for an emitted record, because a
    table that emits records always has at least one candidate. -/
theorem statementType_is_table_majority (payload : Payload) (rs : List FactRec)
    (hok : extract_table_records payload = .ok rs) :
    ∀ r ∈ rs, ∃ ti tb headers dataRows,
      payload.tables.get? ti = some tb ∧
      tableShape tb = .ok (some (headers, dataRows)) ∧
      dataRows ≠ [] ∧
      tableStmtCands headers dataRows ≠ [] ∧
      majority_vote ((tableStmtCands headers dataRows).map some) =
        some r.statementType := by
  intro r hr
  rw [extract_table_records] at hok
  rcases extractTables_mem _ _ payload.tables 0 rs hok r hr with ⟨k, tb, sub, hget, hpt, hmem⟩
  rcases processTable_mem _ _ (0 + k) tb sub hpt r hmem with
    ⟨headers, dataRows, metricCol, hrest, hshape, hhd, r0, hr0, hfin⟩
  have hdne : dataRows ≠ [] := by
    intro h0
    subst h0
    exact absurd hr0 (by rw [rowsRecords]; exact List.not_mem_nil r0)
  have hcne : tableStmtCands headers dataRows ≠ [] := by
    rw [tableStmtCands]
    intro h0
    exact hdne (List.map_eq_nil_iff.1 h0)
  rcases majority_stmt_some (tableStmtCands headers dataRows) hcne (fun x hx => by
    rcases List.mem_map.1 hx with ⟨row, hrow, hxe⟩
    rw [← hxe]
    exact detect_statement_type_ne _) with ⟨L, hL⟩
  refine ⟨k, tb, headers, dataRows, hget, hshape, hdne, hcne, ?_⟩
  have hst : (finalizeRec (majority_vote (tableSectCands headers dataRows))
      (majority_vote ((tableStmtCands headers dataRows).map some)) r0).statementType =
      (majority_vote ((tableStmtCands headers dataRows).map some)).getD
        r0.statementType := rfl
  rw [hfin, hst, hL]
  rfl

/-- C4 witness: the income-table payload's records all carry the table's
    majority statement type. -/
theorem statementType_is_table_majority_witness :
    ∃ rs, extract_table_records incomeTablePayload = .ok rs ∧ rs ≠ [] ∧
      ∀ r ∈ rs, ∃ ti tb headers dataRows,
        incomeTablePayload.tables.get? ti = some tb ∧
        tableShape tb = .ok (some (headers, dataRows)) ∧
        dataRows ≠ [] ∧ tableStmtCands headers dataRows ≠ [] ∧
        majority_vote ((tableStmtCands headers dataRows).map some) =
          some r.statementType := by
  have hrs : ∃ rs, extract_table_records incomeTablePayload = .ok rs := by
    rw [extract_table_records]
    exact extractTables_ok _ _ _ 0 (by decide)
  rcases hrs with ⟨rs, hok⟩
  refine ⟨rs, hok, ?_, statementType_is_table_majority incomeTablePayload rs hok⟩
  intro h0
  rw [h0] at hok
  have h2 : extract_table_records incomeTablePayload = .ok
      [{ id := "Company_FY2024.pdf_p000_r000_c001", year := some "FY2024",
         statementType := "Other", sect := some "Financial Statements",
         metric := "Revenue", value := some 1000, unit := "",
         sourceFile := "Company_FY2024.pdf", page := some 12 },
       { id := "Company_FY2024.pdf_p000_r001_c001", year := some "FY2024",
         statementType := "Other", sect := some "Financial Statements",
         metric := "NetIncome", value := some 200, unit := "",
         sourceFile := "Company_FY2024.pdf", page := some 12 }] := by
    with_unfolding_all rfl
  rw [hok] at h2
  injection h2 with h3
  exact List.noConfusion h3

/-- C5: every emitted fact record's final section follows the exact
    fallback chain: section rules on the row's metric text, else on the
    value column's header text, else the table-wide majority vote over the
    per-row candidates, else the literal `"Financial Statements"`. -/
theorem section_fallback_chain (payload : Payload) (rs : List FactRec)
    (hok : extract_table_records payload = .ok rs) :
    ∀ r ∈ rs, ∃ ti tb headers dataRows metricCol hrest k row j,
      payload.tables.get? ti = some tb ∧
      tableShape tb = .ok (some (headers, dataRows)) ∧
      headers = metricCol :: hrest ∧
      dataRows.get? k = some row ∧
      j + 1 < headers.length ∧
      r.sect = some ((((detect_section (normalize_whitespace
          (dictGetD (rowDict headers row) metricCol ""))).orElse
        (fun _ => detect_section (headers.getD (j + 1) ""))).orElse
        (fun _ => majority_vote (tableSectCands headers dataRows))).getD
          "Financial Statements") := by
  intro r hr
  rw [extract_table_records] at hok
  rcases extractTables_mem _ _ payload.tables 0 rs hok r hr with ⟨k0, tb, sub, hget, hpt, hmem⟩
  rcases processTable_mem _ _ (0 + k0) tb sub hpt r hmem with
    ⟨headers, dataRows, metricCol, hrest, hshape, hhd, r0, hr0, hfin⟩
  rcases rowsRecords_mem _ _ _ headers metricCol _ dataRows 0 r0 hr0 with ⟨k, row, hgetr, hmr⟩
  rcases rowRecords_mem _ _ _ (0 + k) headers metricCol _ row r0 hmr with ⟨j, hj, hr0f⟩
  have hlen : headers.length = hrest.length + 1 := by
    rw [hhd]
    rfl
  refine ⟨k0, tb, headers, dataRows, metricCol, hrest, k, row, j, hget, hshape, hhd,
    hgetr, by omega, ?_⟩
  rw [hfin, hr0f]
  rfl

/-- C5 witness: the income-table payload's records follow the section
    fallback chain. -/
theorem section_fallback_chain_witness :
    ∃ rs, extract_table_records incomeTablePayload = .ok rs ∧
      ∀ r ∈ rs, ∃ ti tb headers dataRows metricCol hrest k row j,
        incomeTablePayload.tables.get? ti = some tb ∧
        tableShape tb = .ok (some (headers, dataRows)) ∧
        headers = metricCol :: hrest ∧
        dataRows.get? k = some row ∧
        j + 1 < headers.length ∧
        r.sect = some ((((detect_section (normalize_whitespace
            (dictGetD (rowDict headers row) metricCol ""))).orElse
          (fun _ => detect_section (headers.getD (j + 1) ""))).orElse
          (fun _ => majority_vote (tableSectCands headers dataRows))).getD
            "Financial Statements") := by
  have hrs : ∃ rs, extract_table_records incomeTablePayload = .ok rs := by
    rw [extract_table_records]
    exact extractTables_ok _ _ _ 0 (by decide)
  rcases hrs with ⟨rs, hok⟩
  exact ⟨rs, hok, section_fallback_chain incomeTablePayload rs hok⟩

/-- C6: every emitted fact record's unit is `"%"` when its raw cell text
    contains a percent sign, else `"$"` when it contains a dollar sign,
    else empty — percent wins when both symbols are present. -/
theorem unit_percent_over_dollar (payload : Payload) (rs : List FactRec)
    (hok : extract_table_records payload = .ok rs) :
    ∀ r ∈ rs, ∃ ti tb headers dataRows metricCol hrest k row j valueRaw,
      payload.tables.get? ti = some tb ∧
      tableShape tb = .ok (some (headers, dataRows)) ∧
      headers = metricCol :: hrest ∧
      dataRows.get? k = some row ∧
      j + 1 < headers.length ∧
      valueRaw = dictGetD (rowDict headers row) (headers.getD (j + 1) "") "" ∧
      r.value = safe_float valueRaw ∧
      r.unit = (if hasChar valueRaw '%' then "%"
        else if hasChar valueRaw '$' then "$" else "") ∧
      (hasChar valueRaw '%' = true → r.unit = "%") ∧
      (hasChar valueRaw '%' = false → hasChar valueRaw '$' = true → r.unit = "$") ∧
      (hasChar valueRaw '%' = false → hasChar valueRaw '$' = false → r.unit = "") := by
  intro r hr
  rw [extract_table_records] at hok
  rcases extractTables_mem _ _ payload.tables 0 rs hok r hr with ⟨k0, tb, sub, hget, hpt, hmem⟩
  rcases processTable_mem _ _ (0 + k0) tb sub hpt r hmem with
    ⟨headers, dataRows, metricCol, hrest, hshape, hhd, r0, hr0, hfin⟩
  rcases rowsRecords_mem _ _ _ headers metricCol _ dataRows 0 r0 hr0 with ⟨k, row, hgetr, hmr⟩
  rcases rowRecords_mem _ _ _ (0 + k) headers metricCol _ row r0 hmr with ⟨j, hj, hr0f⟩
  have hlen : headers.length = hrest.length + 1 := by
    rw [hhd]
    rfl
  have hunit : r.unit = (if hasChar (dictGetD (rowDict headers row)
      (headers.getD (j + 1) "") "") '%' then "%"
    else if hasChar (dictGetD (rowDict headers row) (headers.getD (j + 1) "") "") '$'
      then "$" else "") := by
    rw [hfin, hr0f]
    rfl
  have hval : r.value = safe_float (dictGetD (rowDict headers row)
      (headers.getD (j + 1) "") "") := by
    rw [hfin, hr0f]
    rfl
  refine ⟨k0, tb, headers, dataRows, metricCol, hrest, k, row, j, _, hget, hshape, hhd,
    hgetr, by omega, rfl, hval, hunit, ?_, ?_, ?_⟩
  · intro hp
    rw [hunit, if_pos hp]
  · intro hp hd
    rw [hunit, if_neg (by rw [hp]; exact Bool.false_ne_true), if_pos hd]
  · intro hp hd
    rw [hunit, if_neg (by rw [hp]; exact Bool.false_ne_true),
      if_neg (by rw [hd]; exact Bool.false_ne_true)]

/-- C6 witness: the dollar-and-percent rule evaluated on the income-table
    payload's records. -/
theorem unit_percent_over_dollar_witness :
    ∃ rs, extract_table_records incomeTablePayload = .ok rs ∧
      ∀ r ∈ rs, ∃ ti tb headers dataRows metricCol hrest k row j valueRaw,
        incomeTablePayload.tables.get? ti = some tb ∧
        tableShape tb = .ok (some (headers, dataRows)) ∧
        headers = metricCol :: hrest ∧
        dataRows.get? k = some row ∧
        j + 1 < headers.length ∧
        valueRaw = dictGetD (rowDict headers row) (headers.getD (j + 1) "") "" ∧
        r.value = safe_float valueRaw ∧
        r.unit = (if hasChar valueRaw '%' then "%"
          else if hasChar valueRaw '$' then "$" else "") ∧
        (hasChar valueRaw '%' = true → r.unit = "%") ∧
        (hasChar valueRaw '%' = false → hasChar valueRaw '$' = true → r.unit = "$") ∧
        (hasChar valueRaw '%' = false → hasChar valueRaw '$' = false → r.unit = "") := by
  have hrs : ∃ rs, extract_table_records incomeTablePayload = .ok rs := by
    rw [extract_table_records]
    exact extractTables_ok _ _ _ 0 (by decide)
  rcases hrs with ⟨rs, hok⟩
  exact ⟨rs, hok, unit_percent_over_dollar incomeTablePayload rs hok⟩

/-- C7: `safe_float` strips thousands separators and surrounding
    whitespace and never raises: `"1,234.5"` parses to `1234.5`, the
    em-dash (normalized to `"-"`), the bare `"-"` and the empty string
    parse to `None`, unparseable text parses to `None`, and inserting a
    comma or surrounding whitespace never changes the result. -/
theorem safe_float_behavior :
    safe_float "1,234.5" = some ((2469 : ℚ) / 2) ∧
    safe_float (String.mk [Char.ofNat 0x2014]) = none ∧
    safe_float "-" = none ∧
    safe_float "" = none ∧
    safe_float "abc" = none ∧
    (∀ s t : String, safe_float (s ++ "," ++ t) = safe_float (s ++ t)) ∧
    (∀ s : String, safe_float (" " ++ s) = safe_float s ∧
      safe_float (s ++ " ") = safe_float s) :=
  ⟨by with_unfolding_all rfl, rfl, rfl, rfl, rfl, safe_float_comma,
   fun s => ⟨safe_float_space_left s, safe_float_space_right s⟩⟩

/-- C8: every data row of a table emits exactly one fact per cleaned-grid
    column other than the first: the number of emitted records is
    `|dataRows| * (|headers| - 1)`, and every record's id carries a value
    column index between 1 and `|headers| - 1` — the metric column (index
    0) is never emitted as a value column. -/
theorem one_fact_per_value_column (sf : String) (year : Option String) (ti : Nat)
    (table : TableIn) (sub : List FactRec) (headers : List String) (dataRows : Grid)
    (hok : processTable sf year ti table = .ok sub)
    (hshape : tableShape table = .ok (some (headers, dataRows))) :
    sub.length = dataRows.length * (headers.length - 1) ∧
    ∀ r ∈ sub, ∃ ri ci, factKey r.id = some (ti, ri, ci) ∧
      1 ≤ ci ∧ ci < headers.length ∧ ri < dataRows.length := by
  rw [processTable, hshape] at hok
  dsimp only at hok
  split at hok
  · next hemp =>
    injection hok with h1
    subst h1
    rw [List.isEmpty_iff] at hemp
    rw [hemp]
    exact ⟨by simp, fun r hr => absurd hr (List.not_mem_nil r)⟩
  · split at hok
    · exact Except.noConfusion hok
    · next metricCol hrest =>
      split at hok
      · next hempr =>
        injection hok with h1
        subst h1
        rw [List.isEmpty_iff] at hempr
        constructor
        · have h2 := rowsRecords_length sf year ti (metricCol :: hrest) metricCol
            ((table.boundingRegions.headD ⟨none⟩).pageNumber) dataRows 0
          rw [hempr] at h2
          simpa using h2.symm
        · exact fun r hr => absurd hr (List.not_mem_nil r)
      · injection hok with h1
        subst h1
        constructor
        · rw [List.length_map]
          exact rowsRecords_length sf year ti (metricCol :: hrest) metricCol _ dataRows 0
        · intro r hr
          rcases List.mem_map.1 hr with ⟨r0, hr0, hfin⟩
          rcases rowsRecords_id_shape sf year ti (metricCol :: hrest) metricCol _ dataRows 0
            r0 hr0 with ⟨k, j, hk, hj, hid⟩
          refine ⟨0 + k, j + 1, ?_, by omega, ?_, by omega⟩
          · rw [← hfin, finalizeRec_id, hid, factKey_factId]
          · simp only [List.length_cons] at hj ⊢
            omega

/-- C8 witness: the 4×2 income table yields two data rows, two header
    columns, and exactly `2 * (2 - 1) = 2` fact records. -/
theorem one_fact_per_value_column_witness :
    ∃ sub, processTable "Company_FY2024.pdf" (some "FY2024") 0
        (incomeTablePayload.tables.headD ⟨0, 0, [], []⟩) = .ok sub ∧
      sub.length = [["Revenue", "1,000"], ["Net income", "200"]].length *
        (["Consolidated Statements of Income", "FY2024"].length - 1) := by
  have hshape : tableShape (incomeTablePayload.tables.headD ⟨0, 0, [], []⟩) =
      .ok (some (["Consolidated Statements of Income", "FY2024"],
        [["Revenue", "1,000"], ["Net income", "200"]])) := rfl
  rcases processTable_ok "Company_FY2024.pdf" (some "FY2024") 0
    (incomeTablePayload.tables.headD ⟨0, 0, [], []⟩) (by decide) with ⟨sub, hok⟩
  exact ⟨sub, hok, (one_fact_per_value_column "Company_FY2024.pdf" (some "FY2024") 0
    (incomeTablePayload.tables.headD ⟨0, 0, [], []⟩) sub _ _ hok hshape).1⟩

/-- C9: all chunk ids emitted by `chunk_document` are pairwise distinct,
    all fact ids emitted by `extract_table_records` are pairwise distinct,
    and both functions are deterministic: a second run on the same payload
    in the same tokenizer mode returns the same record sequences. -/
theorem ids_distinct_and_deterministic {τ : Type} (tok : Tokenizer τ) (payload : Payload)
    (cs : List Chunk) (rs : List FactRec)
    (hc : chunk_document tok payload = .ok cs)
    (hr : extract_table_records payload = .ok rs) :
    cs.Pairwise (fun a b => a.id ≠ b.id) ∧
    rs.Pairwise (fun a b => a.id ≠ b.id) ∧
    (∀ cs2, chunk_document tok payload = .ok cs2 → cs2 = cs) ∧
    (∀ rs2, extract_table_records payload = .ok rs2 → rs2 = rs) := by
  refine ⟨?_, ?_, ?_, ?_⟩
  · rw [chunk_document] at hc
    dsimp only at hc
    split at hc
    · injection hc with h1
      subst h1
      exact List.Pairwise.nil
    · have h2 := (chunkLoop_ids tok _ _ _ _ _ _ _ _ hc).2
      exact h2.imp (fun hlt heq => by rw [heq] at hlt; omega)
  · rw [extract_table_records] at hr
    exact extractTables_pairwise _ _ payload.tables 0 rs hr
  · intro cs2 h2
    rw [hc] at h2
    injection h2 with h3
    exact h3.symm
  · intro rs2 h2
    rw [hr] at h2
    injection h2 with h3
    exact h3.symm

/-- C9 witness: the two-page payload's single chunk list has pairwise
    distinct ids and reruns reproduce it. -/
theorem ids_distinct_and_deterministic_witness :
    ∃ cs, chunk_document fallbackTok twoPagePayload = .ok cs ∧
      extract_table_records twoPagePayload = .ok [] ∧
      cs.Pairwise (fun a b => a.id ≠ b.id) := by
  rcases chunk_document_ok fallbackTok twoPagePayload (by decide) with ⟨cs, hok⟩
  exact ⟨cs, hok, rfl,
    (ids_distinct_and_deterministic fallbackTok twoPagePayload cs [] hok rfl).1⟩

/-- C10: the row dict of `extract_table_records` is keyed by header text,
    so looking a header text up returns the cell of the right-most column
    carrying that text; in particular, in a table whose two columns share
    one header text, the emitted fact's metric label and value both come
    from the right-most column (concrete second conjunct: metric `"7"` and
    value `7` come from column 1, not from the `"left"` cell of column
    0). -/
theorem duplicate_header_rightmost :
    (∀ (headers row : List String) (j : Nat), j < headers.length →
      (∀ m, j < m → m < headers.length → headers.getD m "" ≠ headers.getD j "") →
      dictGetD (rowDict headers row) (headers.getD j "") "" = row.getD j "") ∧
    extract_table_records dupHeaderPayload = .ok
      [{ id := "dup.pdf_p000_r000_c001", year := none, statementType := "Other",
         sect := some "Financial Statements", metric := "7", value := some 7,
         unit := "", sourceFile := "dup.pdf", page := none }] := by
  constructor
  · intro headers row j hj hdup
    rw [rowDict]
    exact rowDict_lookup_last headers row headers.length j hj hdup
  · with_unfolding_all rfl

/-- C10 witness: with the duplicate header list `["a", "a"]` the lookup of
    the shared header text returns the right-most cell. -/
theorem duplicate_header_rightmost_witness :
    dictGetD (rowDict ["a", "a"] ["x", "y"]) (["a", "a"].getD 1 "") "" = "y" :=
  duplicate_header_rightmost.1 ["a", "a"] ["x", "y"] 1 (by decide)
    (fun m hm1 hm2 => by
      simp only [List.length_cons, List.length_nil] at hm2
      exact absurd hm1 (by omega))

end PDFX
